import Mathlib

set_option maxRecDepth 40000

/-!
# Verification of `scripts/update_docs.py`

A shallow embedding of the document-reconciliation script.  Documents are
`List Char`; every operation of the script is translated into an executable
Lean function that follows the Python source line by line.  The Python code
works through the `re` module; the three regular expressions it uses are
embedded as dedicated backtracking matchers whose choice order is exactly
the order of Python's backtracking engine (greedy `\s*` tries the longest
extension first, lazy `(?:.*\n)*?` and `.*?` try the shortest first, and
`re.sub`/`re.finditer` scan left to right, resuming after each
non-overlapping match).  `\s` is modelled by the ASCII whitespace class
(space, tab, newline, carriage return, vertical tab, form feed), which is
the set relevant to these markdown documents.

Scanning functions that consume a variable amount of input per step are
written with an explicit fuel argument (structural recursion on `Nat`) plus
a wrapper applying enough fuel, so that all definitions compute by `decide`
and `rfl`; unfolding equations for the wrappers are proved as lemmas.
-/

namespace UpdateDocs

/-! ## Definitions

All definitions of the embedding, in dependency order; the theorems
about them follow after the last definition. -/

/-- ASCII whitespace, as matched by `\s` on these documents. -/
def isWs (c : Char) : Bool :=
  c = ' ' || c = '\t' || c = '\n' || c = '\r' || c = '\x0b' || c = '\x0c'

/-- `COMMIT_HASH` from the script. -/
def COMMIT_HASH : List Char := "ef1b93c".data

/-- `VERIFY_DATE` from the script. -/
def VERIFY_DATE : List Char := "2026-01-24".data

/-- The literal section header `## Last Verified` that starts the
`upsert_last_verified` pattern. -/
def lvLit : List Char := "## Last Verified".data

/-- The canonical replacement `block` built in `upsert_last_verified`. -/
def block : List Char :=
  ("## Last Verified\n- 2026-01-24: Typecheck PASS, scripts/ai/verify_frontend.sh PASS\n- Git: Pushed to main @ ef1b93c\n").data

/-- `block + "\n"`, the replacement text passed to `re.sub`. -/
def blockNl : List Char := block ++ "\n".data

/-- The lookahead `(?=\n## |\Z)` of the `## Last Verified` pattern, read at a
suffix of the document: either end of text or a blank line directly followed
by a sibling header. -/
def boundary (s : List Char) : Bool :=
  s.isEmpty || "\n## ".data.isPrefixOf s

/-- Split off the first line of `s` together with its terminating newline;
`none` when `s` contains no newline (an unterminated final line cannot be
consumed by `.*\n`). -/
def takeLine : List Char → Option (List Char × List Char)
  | [] => none
  | c :: t =>
    if c = '\n' then some ([c], t)
    else
      match takeLine t with
      | some (l, r) => some (c :: l, r)
      | none => none

/-- Fuelled form of the lazy line loop `(?:.*\n)*?(?=\n## |\Z)`: consume whole
lines, fewest first, until the lookahead holds.  Returns the consumed text and
the rest (at which the lookahead holds). -/
def lazyBodyF : Nat → List Char → Option (List Char × List Char)
  | 0, _ => none
  | n + 1, s =>
    if boundary s then some ([], s)
    else
      match takeLine s with
      | none => none
      | some (l, r) =>
        match lazyBodyF n r with
        | some (b, rest) => some (l ++ b, rest)
        | none => none

/-- The lazy line loop `(?:.*\n)*?(?=\n## |\Z)` of the pattern. -/
def lazyBody (s : List Char) : Option (List Char × List Char) :=
  lazyBodyF (s.length + 1) s

/-- The part `\s*\n(?:.*\n)*?(?=\n## |\Z)` of the `## Last Verified` pattern,
with Python's backtracking order: the greedy `\s*` first tries to absorb the
current whitespace character and only on failure lets `\n` consume it. -/
def matchTail : List Char → Option (List Char × List Char)
  | [] => none
  | c :: t =>
    if isWs c then
      match matchTail t with
      | some (b, r) => some (c :: b, r)
      | none =>
        if c = '\n' then
          match lazyBody t with
          | some (b, r) => some (c :: b, r)
          | none => none
        else none
    else none

/-- One attempted match of
`(?m)^## Last Verified\s*\n(?:.*\n)*?(?=\n## |\Z)` at the current position
(the caller guarantees the position is a line start).  Returns the matched
text and the remaining suffix. -/
def matchAt (s : List Char) : Option (List Char × List Char) :=
  if lvLit.isPrefixOf s then
    match matchTail (s.drop lvLit.length) with
    | some (b, r) => some (lvLit ++ b, r)
    | none => none
  else none

/-- `l` is a (possibly empty) concatenation of newline-terminated lines. -/
def linesClosed (l : List Char) : Prop := l = [] ∨ l.getLast? = some '\n'

/-- Fuelled form of the `re.sub` scan for the `## Last Verified` pattern:
walk the document position by position, attempting the pattern only at line
starts (`(?m)^`); on a match emit `block + "\n"` and resume right after the
matched text (whose last character is always a newline, so the resumed
position is a line start). -/
def subAllF : Nat → List Char → Bool → List Char
  | 0, s, _ => s
  | _ + 1, [], _ => []
  | n + 1, c :: t, atLS =>
    if atLS then
      match matchAt (c :: t) with
      | some (_, r) => blockNl ++ subAllF n r true
      | none => c :: subAllF n t (c = '\n')
    else c :: subAllF n t (c = '\n')

/-- The `re.sub(pattern, block + "\n", txt)` call of `upsert_last_verified`,
replacing every non-overlapping match of the pattern. -/
def subAll (s : List Char) (atLS : Bool) : List Char :=
  subAllF (s.length + 1) s atLS

/-- The `re.search(pattern, txt)` test of `upsert_last_verified`: does the
pattern match at any position of the document? -/
def hasMatch : List Char → Bool → Bool
  | [], _ => false
  | c :: t, atLS =>
    if atLS && (matchAt (c :: t)).isSome then true
    else hasMatch t (c = '\n')

/-- Python's `str.rstrip()`: remove trailing whitespace. -/
def rstrip (s : List Char) : List Char := (s.reverse.dropWhile isWs).reverse

/-- `upsert_last_verified` from the script: if the pattern matches anywhere,
substitute every match by `block + "\n"`; otherwise append the block after
exactly one blank line at the (right-stripped) end of the document. -/
def upsert_last_verified (txt : List Char) : List Char :=
  if hasMatch txt true then subAll txt true
  else rstrip txt ++ "\n\n".data ++ block ++ "\n".data

/-- First bullet line of the canonical block. -/
def lvL1 : List Char :=
  "- 2026-01-24: Typecheck PASS, scripts/ai/verify_frontend.sh PASS\n".data

/-- Second bullet line of the canonical block. -/
def lvL2 : List Char := "- Git: Pushed to main @ ef1b93c\n".data

/-- Fuelled collection of the character spans (half open, relative to the
offset argument) matched by the scan of `subAll`. -/
def matchSpansF : Nat → List Char → Bool → Nat → List (Nat × Nat)
  | 0, _, _, _ => []
  | _ + 1, [], _, _ => []
  | n + 1, c :: t, atLS, pos =>
    if atLS then
      match matchAt (c :: t) with
      | some (m, r) => (pos, pos + m.length) :: matchSpansF n r true (pos + m.length)
      | none => matchSpansF n t (c = '\n') (pos + 1)
    else matchSpansF n t (c = '\n') (pos + 1)

/-- Spans of all matches found by the scan, relative to position `0`. -/
def matchSpans (s : List Char) (b : Bool) : List (Nat × Nat) :=
  matchSpansF (s.length + 1) s b 0

/-- Apply an edit list: replace each span by the canonical block, rightmost
edit first so that earlier offsets stay valid. -/
def replaceSpans (txt : List Char) (spans : List (Nat × Nat)) : List Char :=
  spans.foldr (fun sp acc => acc.take sp.1 ++ blockNl ++ acc.drop sp.2) txt

/-- A locator: attempt a match at the start of a suffix, returning the
matched text and the rest. -/
def Matcher : Type := List Char → Option (List Char × List Char)

/-- Sequence: a literal, then continue. -/
def litThen (L : List Char) (k : List Char → Option (List Char)) (s : List Char) :
    Option (List Char) :=
  if L.isPrefixOf s then k (s.drop L.length) else none

/-- Greedy `\s*`: try consuming the next whitespace character first, fall
back to stopping here. -/
def wsStarThen (k : List Char → Option (List Char)) : List Char → Option (List Char)
  | [] => k []
  | c :: t =>
    if isWs c then
      match wsStarThen k t with
      | some r => some r
      | none => k (c :: t)
    else k (c :: t)

/-- Lazy `.*?` under `(?s)`: try continuing here first, else skip one
character (of any kind) and retry. -/
def dotLazyThen (k : List Char → Option (List Char)) : List Char → Option (List Char)
  | [] =>
    match k [] with
    | some r => some r
    | none => none
  | c :: t =>
    match k (c :: t) with
    | some r => some r
    | none => dotLazyThen k t

/-- Lookahead `(?=\n### Date:|\Z)`. -/
def lookP1 (s : List Char) : Option (List Char) :=
  if "\n### Date:".data.isPrefixOf s || s.isEmpty then some s else none

/-- Lookahead `(?=\n---|\Z)`. -/
def lookP2 (s : List Char) : Option (List Char) :=
  if "\n---".data.isPrefixOf s || s.isEmpty then some s else none

/-- An apostrophe character, used in the first cookie-finding literal. -/
def apos : Char := '\x27'

/-- `React Native fetch silently drops uppercase 'Cookie' header`. -/
def react1 : List Char :=
  "React Native fetch silently drops uppercase ".data
    ++ apos :: "Cookie".data ++ apos :: " header".data

/-- `React Native fetch drops uppercase `Cookie` headers`. -/
def react2 : List Char :=
  "React Native fetch drops uppercase `Cookie` headers".data

/-- Pattern
`(?s)### Date:\s*2026-01-24.*?Finding:\s*React Native fetch silently drops
uppercase 'Cookie' header.*?(?=\n### Date:|\Z)`, as the rest after a match
attempt at the given suffix. -/
def p1rest : List Char → Option (List Char) :=
  litThen "### Date:".data (wsStarThen (litThen "2026-01-24".data
    (dotLazyThen (litThen "Finding:".data (wsStarThen (litThen react1
      (dotLazyThen lookP1)))))))

/-- Pattern
`(?s)##\s*2026-01-24\s*\n\n### Finding:\s*React Native fetch drops uppercase
`Cookie` headers.*?(?=\n---|\Z)`. -/
def p2rest : List Char → Option (List Char) :=
  litThen "##".data (wsStarThen (litThen "2026-01-24".data (wsStarThen
    (litThen "\n\n### Finding:".data (wsStarThen (litThen react2
      (dotLazyThen lookP2)))))))

/-- Turn a rest-style pattern into a `Matcher` splitting the suffix. -/
def runP (f : List Char → Option (List Char)) : Matcher := fun s =>
  match f s with
  | some r => some (s.take (s.length - r.length), r)
  | none => none

/-- The script's `cookie_patterns`, in declaration order. -/
def cookiePatterns : List Matcher := [runP p1rest, runP p2rest]

/-- Fuelled `re.finditer`: scan every position left to right, resume after
each non-overlapping match (one character forward after an empty match,
exactly as Python does). -/
def finditerF (f : Matcher) : Nat → List Char → Nat → List (Nat × Nat)
  | 0, _, _ => []
  | _ + 1, [], pos =>
    match f [] with
    | some (m, _) => [(pos, pos + m.length)]
    | none => []
  | n + 1, c :: t, pos =>
    match f (c :: t) with
    | some (m, _) =>
      if m.length = 0 then (pos, pos) :: finditerF f n t (pos + 1)
      else (pos, pos + m.length) :: finditerF f n ((c :: t).drop m.length) (pos + m.length)
    | none => finditerF f n t (pos + 1)

/-- `re.finditer(pattern, doc)` as a list of spans. -/
def finditer (f : Matcher) (doc : List Char) : List (Nat × Nat) :=
  finditerF f (doc.length + 1) doc 0

/-- All matches of all locators, tagged with the locator index. -/
def matchesOf : List Matcher → Nat → List Char → List (Nat × Nat × Nat)
  | [], _, _ => []
  | f :: fs, i, doc =>
    ((finditer f doc).map (fun sp => (sp.1, sp.2, i))) ++ matchesOf fs (i + 1) doc

/-- Python's tuple order on `(start, end, pattern)` (see the section
comment for the tie-breaking by pattern). -/
def tripleLE (a b : Nat × Nat × Nat) : Bool :=
  a.1 < b.1 || (a.1 = b.1 && (a.2.1 < b.2.1 ||
    (a.2.1 = b.2.1 && a.2.2 ≤ b.2.2)))

/-- Stable insertion into a sorted list (equal elements keep their order,
matching Python's stable `list.sort`). -/
def insertLE (x : Nat × Nat × Nat) : List (Nat × Nat × Nat) → List (Nat × Nat × Nat)
  | [] => [x]
  | y :: ys => if tripleLE x y then x :: y :: ys else y :: insertLE x ys

/-- Stable insertion sort, modelling `matches.sort()`. -/
def sortLE : List (Nat × Nat × Nat) → List (Nat × Nat × Nat)
  | [] => []
  | x :: xs => insertLE x (sortLE xs)

/-- `dedupe`: the whole removal step of the script, parameterised by the
ordered locator list as in the specification. -/
def dedupe (ls : List Matcher) (doc : List Char) : List Char :=
  let ms := sortLE (matchesOf ls 0 doc)
  if 1 < ms.length then
    ((ms.drop 1).reverse).foldl
      (fun f sp => f.take sp.1 ++ '\n' :: f.drop sp.2.1) doc
  else doc

/-- The sorted span list `dedupe` works from. -/
def dedupeSpans (ls : List Matcher) (doc : List Char) : List (Nat × Nat × Nat) :=
  sortLE (matchesOf ls 0 doc)

/-- Removal as an edit list applied rightmost first. -/
def removeSpans (txt : List Char) (spans : List (Nat × Nat)) : List Char :=
  spans.foldr (fun sp acc => acc.take sp.1 ++ '\n' :: acc.drop sp.2) txt

/-- Spans ascending-sorted, pairwise disjoint, and in bounds: each span
starts no earlier than `k`, has start ≤ end ≤ `L`, and each later span
starts no earlier than this one ends. -/
def spansOK : Nat → Nat → List (Nat × Nat) → Bool
  | _, _, [] => true
  | k, L, (s, e) :: rest =>
    decide (k ≤ s) && decide (s ≤ e) && decide (e ≤ L) && spansOK e L rest

/-- Left-to-right one-pass splice: keep the bytes before each span, emit a
single newline in place of the span, continue after it.  `o` counts the
characters of the original document already consumed. -/
def cutSpansOff : List Char → Nat → List (Nat × Nat) → List Char
  | txt, _, [] => txt
  | txt, o, (s, e) :: rest =>
    txt.take (s - o) ++ '\n' :: cutSpansOff (txt.drop (e - o)) e rest

/-- Fuelled keepends line split. -/
def splitKEF : Nat → List Char → List (List Char)
  | 0, _ => []
  | _ + 1, [] => []
  | n + 1, c :: t =>
    match takeLine (c :: t) with
    | some (l, r) => l :: splitKEF n r
    | none => [c :: t]

/-- `doc.splitlines(True)` for `'\n'`-separated documents. -/
def splitKE (s : List Char) : List (List Char) :=
  splitKEF (s.length + 1) s

/-- `"".join(lines)`. -/
def joinKE (ls : List (List Char)) : List Char :=
  ls.foldr (fun l acc => l ++ acc) []

/-- Every piece but the last is a newline-terminated line with no inner
newline; the last piece may lack the final newline. -/
def ProperLines : List (List Char) → Prop
  | [] => True
  | [l] => l ≠ [] ∧ '\n' ∉ l.dropLast
  | l :: rest => l ≠ [] ∧ l.getLast? = some '\n' ∧ '\n' ∉ l.dropLast ∧ ProperLines rest

/-- A matcher is faithful when a reported match is an actual nonempty
split of its input. -/
def GoodM (f : Matcher) : Prop :=
  ∀ s m r, f s = some (m, r) → s = m ++ r ∧ m ≠ []

/-- One `(?m)^name:\s*.*$` match attempt at a line start.  The greedy
`\s*` takes the maximal whitespace run — which may cross newlines — and
`.*` then runs to the next newline or the end of the text, where the
multiline `$` always holds; so backtracking never shortens the run and
the match is this deterministic split. -/
def fieldMatch (name : List Char) : Matcher := fun s =>
  if (name ++ ":".data).isPrefixOf s then
    let rest0 := s.drop (name ++ ":".data).length
    let w := rest0.takeWhile isWs
    let rest1 := rest0.dropWhile isWs
    let b := rest1.takeWhile fun c => !(c == '\n')
    let r := rest1.dropWhile fun c => !(c == '\n')
    some (name ++ ":".data ++ w ++ b, r)
  else none

/-- One `(?m)^name:.*\n` match attempt at a line start: `.*` runs to the
line end and a literal newline must follow, so a final unterminated line
never matches. -/
def delMatch (name : List Char) : Matcher := fun s =>
  if (name ++ ":".data).isPrefixOf s then
    let rest0 := s.drop (name ++ ":".data).length
    let b := rest0.takeWhile fun c => !(c == '\n')
    match rest0.dropWhile fun c => !(c == '\n') with
    | [] => none
    | c :: r => if c = '\n' then some (name ++ ":".data ++ b ++ [c], r) else none
  else none

/-- Fuelled `re.sub` for a `(?m)^`-anchored pattern: scan left to right,
attempt the matcher only at line starts, replace every non-overlapping
match by `rep` and resume right after it (after an empty match Python
emits the replacement and copies the current character).  The flag records
whether the scan position is a line start. -/
def reSubF (f : Matcher) (rep : List Char) : Nat → List Char → Bool → List Char
  | 0, s, _ => s
  | _ + 1, [], _ => []
  | n + 1, c :: t, atLS =>
    if atLS then
      match f (c :: t) with
      | some (m, r) =>
        if m.isEmpty then rep ++ c :: reSubF f rep n t (c == '\n')
        else rep ++ reSubF f rep n r (m.getLast? == some '\n')
      | none => c :: reSubF f rep n t (c == '\n')
    else c :: reSubF f rep n t (c == '\n')

/-- `re.sub(pattern, rep, s)` for a line-anchored pattern. -/
def reSub (f : Matcher) (rep : List Char) (s : List Char) : List Char :=
  reSubF f rep (s.length + 1) s true

/-- `patchField`: `re.sub(r"(?m)^name:\s*.*$", f"name: value", doc)`. -/
def patchField (name value doc : List Char) : List Char :=
  reSub (fieldMatch name) (name ++ ": ".data ++ value) doc

/-- The script's `Commit:` rewrite of the handoff packet. -/
def patchCommit (doc : List Char) : List Char :=
  patchField "Commit".data "ef1b93c".data doc

/-- The script's `Push:` rewrite of the handoff packet. -/
def patchPush (doc : List Char) : List Char :=
  patchField "Push".data "YES (main -> main)".data doc

/-- `deleteFieldIf`: `re.sub(r"(?m)^name:.*\n", "", doc)` when `cond`
holds, the identity otherwise; the script passes `cond` = "the INVARIANTS
file does not exist". -/
def deleteFieldIf (name : List Char) (doc : List Char) (cond : Bool) : List Char :=
  if cond then reSub (delMatch name) [] doc else doc

/-- Does a line begin with `name:`? -/
def lineMatches (name l : List Char) : Bool := (name ++ ":".data).isPrefixOf l

/-- The per-line effect of `patchField` on a well-behaved line. -/
def patchLine (name value l : List Char) : List Char :=
  if lineMatches name l then
    name ++ ": ".data ++ value ++ (if l.getLast? = some '\n' then ['\n'] else [])
  else l

/-- A line on which the `\s*` run of `^name:\s*.*$` cannot escape the
line: either it does not match, or it is unterminated, or some
non-whitespace character follows the colon before the line's newline. -/
def goodFieldLine (name l : List Char) : Bool :=
  !(lineMatches name l && (l.getLast? == some '\n'))
    || !((l.drop (name ++ ":".data).length).dropWhile isWs).isEmpty

/-- The per-line removal test of `deleteFieldIf`: the line starts with
`name:` and carries the required newline terminator. -/
def delLine (name l : List Char) : Bool :=
  lineMatches name l && (l.getLast? == some '\n')

/-- The guard substring `"## Auth Contract (Canonical)"`. -/
def authHeader : List Char := "## Auth Contract (Canonical)".data

/-- The `auth_contract` canonical block of the script. -/
def auth_contract : List Char :=
  "## Auth Contract (Canonical)\n\n- Authenticated API calls must use the Better Auth session cookie: `__Secure-better-auth.session_token`.\n- In React Native/Expo, the cookie header must be sent as lowercase `cookie` (uppercase `Cookie` can be dropped).\n- Authed React Query calls must be gated on `bootStatus === ".data
    ++ apos :: "authed".data
    ++ apos :: "` (not `!!session`) to prevent 401 storms during transitions.\n\n".data

/-- The Auth Contract insertion step: skip when the guard substring is
already present, otherwise insert the block after the first line (or use
the block alone for an empty document). -/
def authInsert (findings : List Char) : List Char :=
  if authHeader <:+: findings then findings
  else
    match splitKE findings with
    | [] => auth_contract
    | l0 :: rest => l0 ++ '\n' :: (auth_contract ++ joinKE rest)

/-- Scan wrapper with an explicit line-start flag. -/
def reSubW (f : Matcher) (rep : List Char) (s : List Char) (b : Bool) : List Char :=
  reSubF f rep (s.length + 1) s b

/-- A plain literal locator, used to instantiate the spec's quantification
over locator pattern lists. -/
def litM (L : List Char) : Matcher := fun s =>
  if L.isPrefixOf s then some (L, s.drop L.length) else none

/-- Two literal locators whose removal splice creates a new match. -/
def QLs : List Matcher := [litM "Q".data, litM "a\nb".data]

/-- A findings document with two cookie findings in the first legacy
shape: one bare, one with a trailing ` z`. -/
def cookieDoc : List Char :=
  "### Date: 2026-01-24 x Finding: React Native fetch silently drops uppercase ".data
    ++ apos :: "Cookie".data ++ apos
    :: " header\n### Date: 2026-01-24 y Finding: React Native fetch silently drops uppercase ".data
    ++ apos :: "Cookie".data ++ apos :: " header z".data

/-! ## Theorems -/

theorem takeLine_eq : ∀ {s l r : List Char}, takeLine s = some (l, r) →
    s = l ++ r ∧ l ≠ [] ∧ l.getLast? = some '\n' ∧ ('\n' ∉ l.dropLast) := by
  intro s
  induction s with
  | nil => intro l r h; simp [takeLine] at h
  | cons c t ih =>
    intro l r h
    by_cases hc : c = '\n'
    · subst hc
      simp [takeLine] at h
      obtain ⟨hl, hr⟩ := h
      subst hl; subst hr
      simp
    · simp only [takeLine, if_neg hc] at h
      cases ht : takeLine t with
      | none => rw [ht] at h; simp at h
      | some pr =>
        obtain ⟨l2, r2⟩ := pr
        rw [ht] at h
        simp at h
        obtain ⟨hl, hr⟩ := h
        obtain ⟨he, hne, hlast, hnl⟩ := ih ht
        subst hr
        obtain ⟨x, xs, rfl⟩ := List.exists_cons_of_ne_nil hne
        subst hl
        refine ⟨by simp [he], by simp, ?_, ?_⟩
        · rw [List.getLast?_cons_cons]
          exact hlast
        · have hd : (c :: x :: xs).dropLast = c :: (x :: xs).dropLast := rfl
          rw [hd]
          simp only [List.mem_cons]
          rintro (h1 | h1)
          · exact hc h1.symm
          · exact hnl h1

theorem takeLine_length {s l r : List Char} (h : takeLine s = some (l, r)) :
    r.length < s.length := by
  obtain ⟨he, hne, -, -⟩ := takeLine_eq h
  subst he
  have : 0 < l.length := List.length_pos.mpr hne
  simp only [List.length_append]
  omega

theorem takeLine_none {s : List Char} (h : takeLine s = none) : '\n' ∉ s := by
  induction s with
  | nil => simp
  | cons c t ih =>
    by_cases hc : c = '\n'
    · simp [takeLine, hc] at h
    · simp only [takeLine, if_neg hc] at h
      cases ht : takeLine t with
      | none =>
        simp only [List.mem_cons]
        rintro (h' | h')
        · exact hc h'.symm
        · exact ih ht h'
      | some pr => rw [ht] at h; cases pr; simp at h

theorem lazyBodyF_fuel : ∀ {n m : Nat} {s : List Char}, s.length < n →
    s.length < m → lazyBodyF n s = lazyBodyF m s := by
  intro n
  induction n with
  | zero => intro m s h; omega
  | succ n ih =>
    intro m s hn hm
    cases m with
    | zero => omega
    | succ m =>
      simp only [lazyBodyF]
      by_cases hb : boundary s
      · simp [hb]
      · simp only [if_neg hb]
        cases ht : takeLine s with
        | none => rfl
        | some pr =>
          obtain ⟨l, r⟩ := pr
          have hlen := takeLine_length ht
          have h2 : lazyBodyF n r = lazyBodyF m r := ih (by omega) (by omega)
          dsimp only
          rw [h2]

theorem lazyBody_unfold (s : List Char) :
    lazyBody s =
      if boundary s then some ([], s)
      else
        match takeLine s with
        | none => none
        | some (l, r) =>
          match lazyBody r with
          | some (b, rest) => some (l ++ b, rest)
          | none => none := by
  show lazyBodyF (s.length + 1) s = _
  simp only [lazyBodyF]
  by_cases hb : boundary s
  · simp [hb]
  · simp only [if_neg hb]
    cases ht : takeLine s with
    | none => rfl
    | some pr =>
      obtain ⟨l, r⟩ := pr
      have hlen := takeLine_length ht
      have h2 : lazyBodyF s.length r = lazyBodyF (r.length + 1) r :=
        lazyBodyF_fuel (by omega) (by omega)
      dsimp only
      rw [h2]
      rfl

theorem linesClosed_append_right {a b : List Char} (hne : b ≠ [])
    (hb : linesClosed b) : linesClosed (a ++ b) := by
  rcases hb with rfl | hb
  · exact absurd rfl hne
  · right
    rw [List.getLast?_append_of_ne_nil a hne]
    exact hb

theorem linesClosed_append {a b : List Char} (ha : linesClosed a)
    (hb : linesClosed b) : linesClosed (a ++ b) := by
  rcases hb with rfl | hb
  · simpa using ha
  · exact linesClosed_append_right (by rintro rfl; simp at hb) (Or.inr hb)

theorem linesClosed_cons {c : Char} {b : List Char} (hb : linesClosed b)
    (hne : b ≠ []) : linesClosed (c :: b) := by
  have : c :: b = [c] ++ b := rfl
  rw [this]
  exact linesClosed_append_right hne hb

theorem lazyBody_eq_aux : ∀ (n : Nat) (s b r : List Char), s.length ≤ n →
    lazyBody s = some (b, r) → s = b ++ r ∧ linesClosed b ∧ boundary r = true := by
  intro n
  induction n with
  | zero =>
    intro s b r hlen h
    have hs : s = [] := List.eq_nil_of_length_eq_zero (by omega)
    subst hs
    rw [lazyBody_unfold] at h
    simp [boundary] at h
    obtain ⟨rfl, rfl⟩ := h
    exact ⟨rfl, Or.inl rfl, by simp [boundary]⟩
  | succ n ih =>
    intro s b r hlen h
    rw [lazyBody_unfold] at h
    by_cases hb : boundary s
    · simp only [if_pos hb, Option.some.injEq, Prod.mk.injEq] at h
      obtain ⟨rfl, rfl⟩ := h
      exact ⟨by simp, Or.inl rfl, hb⟩
    · rw [if_neg hb] at h
      cases ht : takeLine s with
      | none => rw [ht] at h; simp at h
      | some pr =>
        obtain ⟨l, r2⟩ := pr
        rw [ht] at h
        dsimp only at h
        cases hlb : lazyBody r2 with
        | none => rw [hlb] at h; simp at h
        | some pr2 =>
          obtain ⟨b2, rest⟩ := pr2
          rw [hlb] at h
          simp only [Option.some.injEq, Prod.mk.injEq] at h
          obtain ⟨rfl, rfl⟩ := h
          obtain ⟨hse, hlne, hlast, -⟩ := takeLine_eq ht
          have hr2 : r2.length ≤ n := by
            have := takeLine_length ht
            omega
          obtain ⟨he2, hc2, hb2⟩ := ih r2 b2 rest hr2 hlb
          refine ⟨by rw [hse, he2, List.append_assoc], ?_, hb2⟩
          exact linesClosed_append (Or.inr hlast) hc2

theorem lazyBody_eq {s b r : List Char} (h : lazyBody s = some (b, r)) :
    s = b ++ r ∧ linesClosed b ∧ boundary r = true :=
  lazyBody_eq_aux s.length s b r (Nat.le_refl _) h

theorem matchTail_eq : ∀ {s b r : List Char}, matchTail s = some (b, r) →
    s = b ++ r ∧ b ≠ [] ∧ linesClosed b ∧ boundary r = true := by
  intro s
  induction s with
  | nil => intro b r h; simp [matchTail] at h
  | cons c t ih =>
    intro b r h
    simp only [matchTail] at h
    by_cases hws : isWs c
    · rw [if_pos hws] at h
      cases hmt : matchTail t with
      | some pr =>
        obtain ⟨b2, r2⟩ := pr
        rw [hmt] at h
        simp only [Option.some.injEq, Prod.mk.injEq] at h
        obtain ⟨rfl, rfl⟩ := h
        obtain ⟨he, hne, hcl, hbd⟩ := ih hmt
        exact ⟨by rw [he]; rfl, by simp, linesClosed_cons hcl hne, hbd⟩
      | none =>
        rw [hmt] at h
        by_cases hc : c = '\n'
        · rw [if_pos hc] at h
          cases hlb : lazyBody t with
          | none => rw [hlb] at h; simp at h
          | some pr =>
            obtain ⟨b2, r2⟩ := pr
            rw [hlb] at h
            simp only [Option.some.injEq, Prod.mk.injEq] at h
            obtain ⟨rfl, rfl⟩ := h
            obtain ⟨he, hcl, hbd⟩ := lazyBody_eq hlb
            subst hc
            refine ⟨by rw [he]; rfl, by simp, ?_, hbd⟩
            rcases hcl with rfl | hcl
            · exact Or.inr rfl
            · exact linesClosed_cons (Or.inr hcl) (by
                rintro rfl; simp at hcl)
        · rw [if_neg hc] at h; simp at h
    · rw [if_neg hws] at h; simp at h

theorem matchAt_eq {s m r : List Char} (h : matchAt s = some (m, r)) :
    s = m ++ r ∧ lvLit <+: m ∧ m ≠ [] ∧ linesClosed m ∧ boundary r = true := by
  unfold matchAt at h
  by_cases hp : lvLit.isPrefixOf s
  · rw [if_pos hp] at h
    cases hmt : matchTail (s.drop lvLit.length) with
    | none => rw [hmt] at h; simp at h
    | some pr =>
      obtain ⟨b, r2⟩ := pr
      rw [hmt] at h
      simp only [Option.some.injEq, Prod.mk.injEq] at h
      obtain ⟨rfl, rfl⟩ := h
      obtain ⟨he, hne, hcl, hbd⟩ := matchTail_eq hmt
      have hsplit : s = lvLit ++ s.drop lvLit.length := by
        have := List.isPrefixOf_iff_prefix.mp hp
        obtain ⟨t, rfl⟩ := this
        simp
      refine ⟨by rw [hsplit, he]; rw [List.append_assoc], List.prefix_append _ _,
        by simp [lvLit], ?_, hbd⟩
      exact linesClosed_append_right hne hcl
  · rw [if_neg hp] at h
    simp at h

theorem matchAt_rest_length {s m r : List Char} (h : matchAt s = some (m, r)) :
    r.length < s.length := by
  obtain ⟨he, -, hne, -, -⟩ := matchAt_eq h
  subst he
  have : 0 < m.length := List.length_pos.mpr hne
  simp only [List.length_append]
  omega

theorem subAllF_fuel : ∀ {n m : Nat} {s : List Char} {b : Bool}, s.length < n →
    s.length < m → subAllF n s b = subAllF m s b := by
  intro n
  induction n with
  | zero => intro m s b h; omega
  | succ n ih =>
    intro m s b hn hm
    cases m with
    | zero => omega
    | succ m =>
      cases s with
      | nil => rfl
      | cons c t =>
        simp only [subAllF]
        by_cases hb : b
        · subst hb
          simp only [if_pos rfl]
          cases hma : matchAt (c :: t) with
          | some pr =>
            obtain ⟨m2, r⟩ := pr
            have hlen := matchAt_rest_length hma
            simp only [List.length_cons] at hn hm hlen
            have h2 : subAllF n r true = subAllF m r true :=
              ih (by omega) (by omega)
            dsimp only
            rw [h2]
            simp
          | none =>
            have h2 : subAllF n t (c = '\n') = subAllF m t (c = '\n') := by
              simp only [List.length_cons] at hn hm
              exact ih (by omega) (by omega)
            dsimp only
            rw [h2]
        · simp only [if_neg hb]
          have h2 : subAllF n t (c = '\n') = subAllF m t (c = '\n') := by
            simp only [List.length_cons] at hn hm
            exact ih (by omega) (by omega)
          rw [h2]

theorem subAll_nil (b : Bool) : subAll [] b = [] := rfl

theorem subAll_unfold (c : Char) (t : List Char) (b : Bool) :
    subAll (c :: t) b =
      if b then
        match matchAt (c :: t) with
        | some (_, r) => blockNl ++ subAll r true
        | none => c :: subAll t (c = '\n')
      else c :: subAll t (c = '\n') := by
  show subAllF ((c :: t).length + 1) (c :: t) b = _
  simp only [subAllF]
  by_cases hb : b
  · subst hb
    simp only [if_pos rfl]
    cases hma : matchAt (c :: t) with
    | some pr =>
      obtain ⟨m2, r⟩ := pr
      have hlen := matchAt_rest_length hma
      have h2 : subAllF (c :: t).length r true = subAllF (r.length + 1) r true :=
        subAllF_fuel (by simp only [List.length_cons] at hlen ⊢; omega)
          (Nat.lt_succ_self _)
      dsimp only
      rw [h2]
      rfl
    | none =>
      have h2 : subAllF (c :: t).length t (c = '\n') =
          subAllF (t.length + 1) t (c = '\n') :=
        subAllF_fuel (by simp) (Nat.lt_succ_self _)
      dsimp only
      rw [h2]
      rfl
  · simp only [if_neg hb]
    have h2 : subAllF (c :: t).length t (c = '\n') =
        subAllF (t.length + 1) t (c = '\n') :=
      subAllF_fuel (by simp) (Nat.lt_succ_self _)
    rw [h2]
    rfl

/-! ### List utilities for the scan proofs -/

theorem split_first_nl : ∀ {u : List Char}, '\n' ∈ u →
    ∃ a u2, u = a ++ '\n' :: u2 ∧ '\n' ∉ a := by
  intro u
  induction u with
  | nil => intro h; simp at h
  | cons c t ih =>
    intro h
    by_cases hc : c = '\n'
    · exact ⟨[], t, by subst hc; rfl, by simp⟩
    · have : '\n' ∈ t := by
        rcases List.mem_cons.mp h with h1 | h1
        · exact absurd h1.symm hc
        · exact h1
      obtain ⟨a, u2, he, hna⟩ := ih this
      exact ⟨c :: a, u2, by rw [he]; rfl, by
        simp only [List.mem_cons]
        rintro (h1 | h1)
        · exact hc h1.symm
        · exact hna h1⟩

theorem split_last_nl : ∀ {u : List Char}, '\n' ∈ u →
    ∃ w1 w2, u = w1 ++ '\n' :: w2 ∧ '\n' ∉ w2 := by
  intro u
  induction u with
  | nil => intro h; simp at h
  | cons c t ih =>
    intro h
    by_cases ht : '\n' ∈ t
    · obtain ⟨w1, w2, he, hn⟩ := ih ht
      exact ⟨c :: w1, w2, by rw [he]; rfl, hn⟩
    · have hc : c = '\n' := by
        rcases List.mem_cons.mp h with h1 | h1
        · exact h1.symm
        · exact absurd h1 ht
      exact ⟨[], t, by subst hc; rfl, ht⟩

theorem takeLine_append_nl : ∀ {a : List Char}, '\n' ∉ a → ∀ (r : List Char),
    takeLine (a ++ '\n' :: r) = some (a ++ ['\n'], r) := by
  intro a
  induction a with
  | nil => intro _ r; simp [takeLine]
  | cons c t ih =>
    intro hn r
    have hc : ¬(c = '\n') := fun h => hn (by simp [h])
    have ht : '\n' ∉ t := fun h => hn (by simp [h])
    simp only [List.cons_append, takeLine, if_neg hc, List.append_eq, ih ht r]

/-- A single newline-terminated line prefixes the `takeLine` split. -/
theorem takeLine_line {l : List Char}
    (hlast : l.getLast? = some '\n') (hbody : '\n' ∉ l.dropLast) (z : List Char) :
    takeLine (l ++ z) = some (l, z) := by
  have hd : l = l.dropLast ++ ['\n'] :=
    (List.dropLast_append_getLast? '\n' (Option.mem_def.mpr hlast)).symm
  rw [hd, List.append_assoc]
  simpa using takeLine_append_nl hbody z

theorem takeWhile_append_nonWs {d : Char} (hd : ¬isWs d = true) :
    ∀ (u A : List Char),
      (u ++ d :: A).takeWhile isWs = u.takeWhile isWs ∧
      (u ++ d :: A).dropWhile isWs = u.dropWhile isWs ++ d :: A := by
  intro u A
  induction u with
  | nil =>
    constructor
    · simp [List.takeWhile_cons, hd]
    · simp [List.dropWhile_cons, hd]
  | cons c t ih =>
    by_cases hc : isWs c
    · constructor
      · simp only [List.cons_append, List.takeWhile_cons, hc, if_pos, ih.1]
      · simp only [List.cons_append, List.dropWhile_cons, hc, if_pos, ih.2]
    · constructor
      · simp only [List.cons_append, List.takeWhile_cons, hc]
        simp [hc]
      · simp only [List.cons_append, List.dropWhile_cons, hc]
        simp [hc]

/-- The first line of a nonempty lines-closed text. -/
theorem linesClosed_firstLine {m : List Char} (hne : m ≠ [])
    (hcl : linesClosed m) :
    ∃ l m2, m = l ++ m2 ∧ l ≠ [] ∧ l.getLast? = some '\n' ∧
      '\n' ∉ l.dropLast ∧ linesClosed m2 := by
  have hnl : '\n' ∈ m := by
    rcases hcl with rfl | hcl
    · exact absurd rfl hne
    · obtain ⟨h1, h2⟩ := List.mem_getLast?_eq_getLast (Option.mem_def.mpr hcl)
      rw [h2]
      exact List.getLast_mem h1
  obtain ⟨a, u2, rfl, hna⟩ := split_first_nl hnl
  refine ⟨a ++ ['\n'], u2, by simp, by simp, by simp, by simpa using hna, ?_⟩
  rcases hcl with h | h
  · simp at h
  · rcases List.eq_nil_or_concat u2 with rfl | ⟨b2, x, rfl⟩
    · exact Or.inl rfl
    · right
      have he2 : a ++ '\n' :: b2.concat x = (a ++ ['\n']) ++ b2.concat x := by
        simp
      rw [he2, List.getLast?_append_of_ne_nil _ (by simp)] at h
      exact h

/-! ### Success and failure lemmas for the backtracking matcher -/

theorem lazyBody_of_boundary {z : List Char} (h : boundary z = true) :
    lazyBody z = some ([], z) := by
  rw [lazyBody_unfold, if_pos h]

theorem lazyBody_append_ne_none : ∀ (n : Nat) (u z : List Char), u.length ≤ n →
    linesClosed u → lazyBody z ≠ none → lazyBody (u ++ z) ≠ none := by
  intro n
  induction n with
  | zero =>
    intro u z hlen hcl hz
    have : u = [] := List.eq_nil_of_length_eq_zero (by omega)
    subst this
    simpa using hz
  | succ n ih =>
    intro u z hlen hcl hz
    rcases eq_or_ne u [] with rfl | hne
    · simpa using hz
    · rw [lazyBody_unfold]
      by_cases hb : boundary (u ++ z)
      · simp [hb]
      · rw [if_neg hb]
        obtain ⟨l, u2, rfl, hlne, hlast, hbody, hcl2⟩ :=
          linesClosed_firstLine hne hcl
        rw [List.append_assoc, takeLine_line hlast hbody (u2 ++ z)]
        have hu2 : u2.length ≤ n := by
          have : 0 < l.length := List.length_pos.mpr hlne
          simp only [List.length_append] at hlen
          omega
        have h2 := ih u2 z hu2 hcl2 hz
        cases h3 : lazyBody (u2 ++ z) with
        | none => exact absurd h3 h2
        | some pr => obtain ⟨b, r⟩ := pr; simp [h3]

theorem lazyBody_nlfree_line {u l z2 : List Char} (hu : '\n' ∉ u)
    (hlne : l ≠ []) (hlast : l.getLast? = some '\n') (hbody : '\n' ∉ l.dropLast)
    (hz : lazyBody z2 ≠ none) : lazyBody (u ++ l ++ z2) ≠ none := by
  have hne2 : u ++ l ≠ [] := by simp [hlne]
  have hlast2 : (u ++ l).getLast? = some '\n' := by
    rw [List.getLast?_append_of_ne_nil _ hlne]
    exact hlast
  have hbody2 : '\n' ∉ (u ++ l).dropLast := by
    rw [List.dropLast_append_of_ne_nil u hlne]
    simp only [List.mem_append]
    rintro (h | h)
    · exact hu h
    · exact hbody h
  rw [lazyBody_unfold]
  by_cases hb : boundary (u ++ l ++ z2)
  · rw [if_pos hb]
    simp
  · rw [if_neg hb, takeLine_line hlast2 hbody2 z2]
    cases h3 : lazyBody z2 with
    | none => exact absurd h3 hz
    | some pr => obtain ⟨b, r⟩ := pr; simp [h3]

theorem matchTail_nonWs_head {c : Char} (hc : isWs c = false) (t : List Char) :
    matchTail (c :: t) = none := by
  simp [matchTail, hc]

theorem runFail : ∀ (u : List Char), (∀ x ∈ u, isWs x = true ∧ x ≠ '\n') →
    ∀ {d : Char}, isWs d = false → ∀ (v : List Char),
      matchTail (u ++ d :: v) = none := by
  intro u
  induction u with
  | nil =>
    intro _ d hd v
    simpa using matchTail_nonWs_head hd v
  | cons c t ih =>
    intro hu d hd v
    obtain ⟨hcw, hcn⟩ := hu c (by simp)
    have ht : ∀ x ∈ t, isWs x = true ∧ x ≠ '\n' := fun x hx => hu x (by simp [hx])
    have h2 := ih ht hd v
    simp only [List.cons_append, matchTail, if_pos hcw, List.append_eq, h2,
      if_neg hcn]

theorem matchTail_complete : ∀ (w : List Char), (∀ x ∈ w, isWs x = true) →
    ∀ {v : List Char}, lazyBody v ≠ none → matchTail (w ++ '\n' :: v) ≠ none := by
  intro w
  induction w with
  | nil =>
    intro _ v hv
    have hws : isWs '\n' = true := rfl
    simp only [List.nil_append, matchTail, if_pos hws]
    cases hmt : matchTail v with
    | some pr => obtain ⟨b, r⟩ := pr; simp
    | none =>
      simp only [if_pos rfl]
      cases hlb : lazyBody v with
      | none => exact absurd hlb hv
      | some pr => obtain ⟨b, r⟩ := pr; simp
  | cons c t ih =>
    intro hw v hv
    have hcw : isWs c = true := hw c (by simp)
    have ht : ∀ x ∈ t, isWs x = true := fun x hx => hw x (by simp [hx])
    have h2 := ih ht hv
    simp only [List.cons_append, matchTail, if_pos hcw]
    cases hmt : matchTail (t ++ '\n' :: v) with
    | none => exact absurd hmt h2
    | some pr => obtain ⟨b, r⟩ := pr; simp

/-! ### Structure of a whole scan -/

/-- Either the scan finds no match and copies the document, or the document
splits as `gap ++ match ++ rest`, the scan replacing the match and recursing
on the rest.  The gap before the first match ends at a line start. -/
theorem scanSplit : ∀ (n : Nat) (t : List Char) (b : Bool), t.length ≤ n →
    (hasMatch t b = false ∧ subAll t b = t) ∨
    ∃ p m r, t = p ++ m ++ r ∧ matchAt (m ++ r) = some (m, r) ∧
      subAll t b = p ++ blockNl ++ subAll r true ∧
      (p = [] → b = true) ∧ linesClosed p := by
  intro n
  induction n with
  | zero =>
    intro t b hlen
    have ht : t = [] := List.eq_nil_of_length_eq_zero (by omega)
    subst ht
    left
    exact ⟨rfl, rfl⟩
  | succ n ih =>
    intro t b hlen
    cases t with
    | nil => left; exact ⟨rfl, rfl⟩
    | cons c t2 =>
      by_cases hb : b
      · subst hb
        cases hma : matchAt (c :: t2) with
        | some pr =>
          obtain ⟨m, r⟩ := pr
          right
          obtain ⟨hmr, -, -, -, -⟩ := matchAt_eq hma
          refine ⟨[], m, r, by simpa using hmr, hmr ▸ hma, ?_, fun _ => rfl,
            Or.inl rfl⟩
          rw [subAll_unfold, if_pos rfl, hma]
          simp
        | none =>
          rcases ih t2 (c = '\n') (by simp at hlen; omega) with
            ⟨hm, hs⟩ | ⟨p, m, r, he, hma2, hs, hp0, hpc⟩
          · left
            constructor
            · simp only [hasMatch, hma, Option.isSome_none, Bool.and_false,
                if_neg, Bool.false_eq_true, not_false_eq_true]
              exact hm
            · rw [subAll_unfold, if_pos rfl, hma]
              dsimp only
              rw [hs]
          · right
            refine ⟨c :: p, m, r, by rw [he]; rfl, hma2, ?_, by simp, ?_⟩
            · rw [subAll_unfold, if_pos rfl, hma]
              dsimp only
              rw [hs]
              rfl
            · by_cases hp : p = []
              · subst hp
                have : c = '\n' := by
                  have h2 := hp0 rfl
                  exact of_decide_eq_true h2
                subst this
                exact Or.inr rfl
              · exact linesClosed_cons hpc hp
      · rcases ih t2 (c = '\n') (by simp at hlen; omega) with
          ⟨hm, hs⟩ | ⟨p, m, r, he, hma2, hs, hp0, hpc⟩
        · left
          constructor
          · have hb2 : b = false := by
              cases b
              · rfl
              · exact absurd rfl hb
            subst hb2
            simp only [hasMatch, Bool.false_and, if_neg, Bool.false_eq_true,
              not_false_eq_true]
            exact hm
          · rw [subAll_unfold, if_neg hb, hs]
        · right
          refine ⟨c :: p, m, r, by rw [he]; rfl, hma2, ?_, by simp, ?_⟩
          · rw [subAll_unfold, if_neg hb, hs]
            rfl
          · by_cases hp : p = []
            · subst hp
              have : c = '\n' := of_decide_eq_true (hp0 rfl)
              subst this
              exact Or.inr rfl
            · exact linesClosed_cons hpc hp

/-! ### Shape of the canonical block and matches inside the rewritten text -/

theorem blockNl_decomp :
    blockNl = lvLit ++ '\n' :: (lvL1 ++ (lvL2 ++ ['\n'])) := by decide

theorem lvLit_length : lvLit.length = 16 := by decide

theorem take_lit_append (z : List Char) : (lvLit ++ z).take 16 = lvLit := by
  rw [List.take_append_of_le_length (by rw [lvLit_length])]
  rw [← lvLit_length, List.take_length]

theorem drop_lit_append (z : List Char) : (lvLit ++ z).drop 16 = z := by
  rw [← lvLit_length, List.drop_left]

theorem lit_prefix_iff {s : List Char} :
    lvLit.isPrefixOf s = true ↔ s.take 16 = lvLit := by
  rw [List.isPrefixOf_iff_prefix, List.prefix_iff_eq_take, lvLit_length]
  exact ⟨fun h => h.symm, fun h => h.symm⟩

theorem take16_append_congr {X Y : List Char} (h : X.take 16 = Y.take 16)
    (u : List Char) : (u ++ X).take 16 = (u ++ Y).take 16 := by
  rw [List.take_append_eq_append_take, List.take_append_eq_append_take]
  congr 1
  have hx : X.take (16 - u.length) = (X.take 16).take (16 - u.length) := by
    rw [List.take_take]
    congr 1
    omega
  have hy : Y.take (16 - u.length) = (Y.take 16).take (16 - u.length) := by
    rw [List.take_take]
    congr 1
    omega
  rw [hx, hy, h]

theorem matchAt_head_ne {c : Char} (hc : c ≠ '#') (t : List Char) :
    matchAt (c :: t) = none := by
  unfold matchAt
  have hnp : ¬(lvLit.isPrefixOf (c :: t) = true) := by
    intro h
    obtain ⟨u, hu⟩ := List.isPrefixOf_iff_prefix.mp h
    have he : lvLit = '#' :: "# Last Verified".data := rfl
    rw [he] at hu
    simp only [List.cons_append] at hu
    injection hu with h1 _
    exact hc h1.symm
  rw [if_neg hnp]

theorem boundary_head_ne {c : Char} (hc : c ≠ '\n') (t : List Char) :
    boundary (c :: t) = false := by
  have he : "\n## ".data = '\n' :: "## ".data := rfl
  have h2 : ("\n## ".data).isPrefixOf (c :: t) = false := by
    rw [he]
    show (('\n' == c) && ("## ".data.isPrefixOf t)) = false
    have : ('\n' == c) = false := by
      simp only [beq_eq_false_iff_ne, ne_eq]
      exact fun h => hc h.symm
    rw [this, Bool.false_and]
  simp [boundary, h2]

theorem boundary_shape {r : List Char} (h : boundary r = true) :
    r = [] ∨ ∃ Z, r = '\n' :: Z ∧ "## ".data <+: Z := by
  unfold boundary at h
  rcases Bool.or_eq_true_iff.mp h with h1 | h1
  · left
    exact List.isEmpty_iff.mp h1
  · right
    obtain ⟨u, hu⟩ := List.isPrefixOf_iff_prefix.mp h1
    refine ⟨"## ".data ++ u, ?_, List.prefix_append _ _⟩
    rw [← hu]
    rfl

theorem boundary_of_shape {Z : List Char} (h : "## ".data <+: Z) :
    boundary ('\n' :: Z) = true := by
  obtain ⟨u, rfl⟩ := h
  have : "\n## ".data.isPrefixOf ('\n' :: ("## ".data ++ u)) = true := by
    rw [List.isPrefixOf_iff_prefix]
    have he : ('\n' :: ("## ".data ++ u)) = "\n## ".data ++ u := rfl
    rw [he]
    exact List.prefix_append _ _
  simp [boundary, this]

/-- `lazyBody` on a lone newline followed by nothing or by a sibling header:
the blank line is consumed (or ends the text) and the loop stops. -/
theorem takeLine_nl (w : List Char) : takeLine ('\n' :: w) = some (['\n'], w) := by
  simp [takeLine]

theorem lazyBody_nl_shape {Y : List Char}
    (h : Y = [] ∨ ∃ Z, Y = '\n' :: Z ∧ "## ".data <+: Z) :
    lazyBody ('\n' :: Y) = some (['\n'], Y) := by
  rcases h with rfl | ⟨Z, rfl, hz⟩
  · decide
  · rw [lazyBody_unfold]
    have hb : boundary ('\n' :: '\n' :: Z) = false := by
      have h2 : ("\n## ".data).isPrefixOf ('\n' :: '\n' :: Z) = false := by
        show (('\n' == '\n') && (('#' == '\n') && (('#' :: [' ']).isPrefixOf Z)))
          = false
        rw [show (('#' : Char) == '\n') = false from rfl]
        simp
      simp [boundary, h2]
    rw [hb]
    simp only [Bool.false_eq_true, if_false]
    rw [takeLine_nl]
    dsimp only
    rw [lazyBody_of_boundary (boundary_of_shape hz)]
    simp

theorem lazyBody_L2 {Y : List Char}
    (h : Y = [] ∨ ∃ Z, Y = '\n' :: Z ∧ "## ".data <+: Z) :
    lazyBody (lvL2 ++ '\n' :: Y) = some (lvL2 ++ ['\n'], Y) := by
  have e2 : lvL2 = '-' :: " Git: Pushed to main @ ef1b93c\n".data := rfl
  rw [lazyBody_unfold]
  have hb : boundary (lvL2 ++ '\n' :: Y) = false := by
    rw [e2, List.cons_append]
    exact boundary_head_ne (by decide) _
  rw [hb]
  simp only [Bool.false_eq_true, if_false]
  rw [takeLine_line (by decide) (by decide) ('\n' :: Y)]
  dsimp only
  rw [lazyBody_nl_shape h]

theorem matchTail_blockTail {Y : List Char}
    (h : Y = [] ∨ ∃ Z, Y = '\n' :: Z ∧ "## ".data <+: Z) :
    matchTail ('\n' :: (lvL1 ++ (lvL2 ++ ('\n' :: Y))))
      = some ('\n' :: (lvL1 ++ (lvL2 ++ ['\n'])), Y) := by
  have e1 : lvL1 =
      '-' :: " 2026-01-24: Typecheck PASS, scripts/ai/verify_frontend.sh PASS\n".data :=
    rfl
  have hmt : matchTail (lvL1 ++ (lvL2 ++ ('\n' :: Y))) = none := by
    rw [e1, List.cons_append]
    exact matchTail_nonWs_head (by decide) _
  have hlb1 : lazyBody (lvL1 ++ (lvL2 ++ ('\n' :: Y)))
      = some (lvL1 ++ (lvL2 ++ ['\n']), Y) := by
    rw [lazyBody_unfold]
    have hb : boundary (lvL1 ++ (lvL2 ++ ('\n' :: Y))) = false := by
      rw [e1, List.cons_append]
      exact boundary_head_ne (by decide) _
    rw [hb]
    simp only [Bool.false_eq_true, if_false]
    rw [takeLine_line (by decide) (by decide) (lvL2 ++ ('\n' :: Y))]
    dsimp only
    rw [lazyBody_L2 h]
  have hws : isWs '\n' = true := rfl
  have hcons : matchTail ('\n' :: (lvL1 ++ (lvL2 ++ ('\n' :: Y)))) =
      if isWs '\n' then
        match matchTail (lvL1 ++ (lvL2 ++ ('\n' :: Y))) with
        | some (b, r) => some ('\n' :: b, r)
        | none =>
          if '\n' = '\n' then
            match lazyBody (lvL1 ++ (lvL2 ++ ('\n' :: Y))) with
            | some (b, r) => some ('\n' :: b, r)
            | none => none
          else none
      else none := rfl
  rw [hcons, if_pos hws, hmt]
  dsimp only
  rw [if_pos rfl, hlb1]

theorem matchAt_blockNl {Y : List Char}
    (h : Y = [] ∨ ∃ Z, Y = '\n' :: Z ∧ "## ".data <+: Z) :
    matchAt (blockNl ++ Y) = some (blockNl, Y) := by
  have hsplit : blockNl ++ Y
      = lvLit ++ ('\n' :: (lvL1 ++ (lvL2 ++ ('\n' :: Y)))) := by
    rw [blockNl_decomp]
    simp
  rw [hsplit]
  unfold matchAt
  rw [if_pos (lit_prefix_iff.mpr (take_lit_append _)), List.drop_left,
    matchTail_blockTail h]
  rw [blockNl_decomp]

/-- Dropping `k ∈ [1, 15]` characters of the header literal leaves a text on
which `\s*\n...` can never match, whatever follows. -/
theorem litDropFail : ∀ (k : Nat), 1 ≤ k → k ≤ 15 → ∀ (z : List Char),
    matchTail (lvLit.drop k ++ z) = none := by
  intro k h1 h2 z
  interval_cases k
  · rw [show lvLit.drop 1 = '#' :: " Last Verified".data by decide,
      List.cons_append]
    exact matchTail_nonWs_head (by decide) _
  · rw [show lvLit.drop 2 = ' ' :: 'L' :: "ast Verified".data by decide,
      List.cons_append, List.cons_append]
    exact runFail [' '] (by decide) (by decide) _
  · rw [show lvLit.drop 3 = 'L' :: "ast Verified".data by decide,
      List.cons_append]
    exact matchTail_nonWs_head (by decide) _
  · rw [show lvLit.drop 4 = 'a' :: "st Verified".data by decide,
      List.cons_append]
    exact matchTail_nonWs_head (by decide) _
  · rw [show lvLit.drop 5 = 's' :: "t Verified".data by decide,
      List.cons_append]
    exact matchTail_nonWs_head (by decide) _
  · rw [show lvLit.drop 6 = 't' :: " Verified".data by decide,
      List.cons_append]
    exact matchTail_nonWs_head (by decide) _
  · rw [show lvLit.drop 7 = ' ' :: 'V' :: "erified".data by decide,
      List.cons_append, List.cons_append]
    exact runFail [' '] (by decide) (by decide) _
  · rw [show lvLit.drop 8 = 'V' :: "erified".data by decide, List.cons_append]
    exact matchTail_nonWs_head (by decide) _
  · rw [show lvLit.drop 9 = 'e' :: "rified".data by decide, List.cons_append]
    exact matchTail_nonWs_head (by decide) _
  · rw [show lvLit.drop 10 = 'r' :: "ified".data by decide, List.cons_append]
    exact matchTail_nonWs_head (by decide) _
  · rw [show lvLit.drop 11 = 'i' :: "fied".data by decide, List.cons_append]
    exact matchTail_nonWs_head (by decide) _
  · rw [show lvLit.drop 12 = 'f' :: "ied".data by decide, List.cons_append]
    exact matchTail_nonWs_head (by decide) _
  · rw [show lvLit.drop 13 = 'i' :: "ed".data by decide, List.cons_append]
    exact matchTail_nonWs_head (by decide) _
  · rw [show lvLit.drop 14 = 'e' :: "d".data by decide, List.cons_append]
    exact matchTail_nonWs_head (by decide) _
  · rw [show lvLit.drop 15 = 'd' :: ([] : List Char) by decide, List.cons_append]
    exact matchTail_nonWs_head (by decide) _

theorem subAll_take16 : ∀ (n : Nat) (s : List Char) (b : Bool), s.length ≤ n →
    (subAll s b).take 16 = s.take 16 := by
  intro n
  induction n with
  | zero =>
    intro s b hlen
    have hs : s = [] := List.eq_nil_of_length_eq_zero (by omega)
    subst hs
    rfl
  | succ n ih =>
    intro s b hlen
    cases s with
    | nil => rfl
    | cons c t =>
      have hcopy : (c :: subAll t (c = '\n')).take 16 = (c :: t).take 16 := by
        rw [show (16 : Nat) = 15 + 1 from rfl, List.take_succ_cons,
          List.take_succ_cons]
        have h16 := ih t (c = '\n') (by simp at hlen; omega)
        rw [show (15 : Nat) = min 15 16 from rfl, ← List.take_take, h16,
          List.take_take]
      rw [subAll_unfold]
      by_cases hb : b
      · subst hb
        rw [if_pos rfl]
        cases hma : matchAt (c :: t) with
        | some pr =>
          obtain ⟨m, r⟩ := pr
          dsimp only
          obtain ⟨hmr, hlit, -, -, -⟩ := matchAt_eq hma
          obtain ⟨mtail, hm⟩ := hlit
          rw [hmr, ← hm, List.append_assoc, take_lit_append,
            blockNl_decomp, List.append_assoc, take_lit_append]
        | none =>
          dsimp only
          exact hcopy
      · rw [if_neg hb]
        exact hcopy

theorem suffix_getLast? {l₂ l : List Char} (h : l₂ <:+ l) (hne : l₂ ≠ []) :
    l₂.getLast? = l.getLast? := by
  obtain ⟨pre, rfl⟩ := h
  rw [List.getLast?_append_of_ne_nil pre hne]

theorem dropWhile_head_false {p : Char → Bool} :
    ∀ {l : List Char} {c : Char} {t : List Char},
      l.dropWhile p = c :: t → p c = false := by
  intro l
  induction l with
  | nil => intro c t h; simp [List.dropWhile] at h
  | cons a l2 ih =>
    intro c t h
    rw [List.dropWhile_cons] at h
    by_cases ha : p a
    · rw [if_pos ha] at h
      exact ih h
    · rw [if_neg ha] at h
      injection h with h1 _
      subst h1
      exact Bool.not_eq_true _ |>.mp ha

/-- Key frame lemma: a position at which the pattern does not match still
does not match after the rest of the document has been rewritten by the
scan. -/
theorem keyLemma {c : Char} {t : List Char} (b2 : Bool)
    (h : matchAt (c :: t) = none) : matchAt (c :: subAll t b2) = none := by
  rcases scanSplit t.length t b2 (le_refl _) with ⟨-, hs⟩ | hsplit
  · rw [hs]
    exact h
  obtain ⟨p, m, r, he, hma, hs, hp0, hpc⟩ := hsplit
  rw [hs]
  obtain ⟨-, hlit, hmne, hmcl, hbr⟩ := matchAt_eq hma
  obtain ⟨mtail, hm⟩ := hlit
  subst he
  have hassoc1 : c :: (p ++ m ++ r) = (c :: p) ++ (m ++ r) := by simp
  have hassoc2 : c :: (p ++ blockNl ++ subAll r true)
      = (c :: p) ++ (blockNl ++ subAll r true) := by simp
  rw [hassoc1] at h
  rw [hassoc2]
  set Y := subAll r true with hY
  by_cases hp : lvLit.isPrefixOf ((c :: p) ++ (blockNl ++ Y))
  case neg =>
    unfold matchAt
    rw [if_neg hp]
  have htake : ((c :: p) ++ (m ++ r)).take 16 = ((c :: p) ++ (blockNl ++ Y)).take 16 := by
    apply take16_append_congr
    rw [← hm, List.append_assoc, take_lit_append, blockNl_decomp,
      List.append_assoc, take_lit_append]
  have hp1 : lvLit.isPrefixOf ((c :: p) ++ (m ++ r)) = true := by
    rw [lit_prefix_iff, htake, ← lit_prefix_iff]
    exact hp
  have hmt1 : matchTail (((c :: p) ++ (m ++ r)).drop lvLit.length) = none := by
    unfold matchAt at h
    rw [if_pos hp1] at h
    cases hx : matchTail (((c :: p) ++ (m ++ r)).drop lvLit.length) with
    | some pr =>
      rw [hx] at h
      obtain ⟨b3, r3⟩ := pr
      simp at h
    | none => rfl
  unfold matchAt
  rw [if_pos hp]
  suffices h2 : matchTail (((c :: p) ++ (blockNl ++ Y)).drop lvLit.length) = none by
    rw [h2]
  rw [lvLit_length] at hmt1 ⊢
  set u := c :: p with hu
  have hupos : 0 < u.length := by simp [hu]
  rcases Nat.lt_or_ge u.length 16 with hul | hul
  · have hk1 : 1 ≤ 16 - u.length := by omega
    have hk2 : 16 - u.length ≤ 15 := by omega
    have hdrop : (u ++ (blockNl ++ Y)).drop 16
        = lvLit.drop (16 - u.length) ++ (('\n' :: (lvL1 ++ (lvL2 ++ ['\n']))) ++ Y) := by
      rw [List.drop_append_eq_append_drop, List.drop_eq_nil_of_le (le_of_lt hul),
        List.nil_append, blockNl_decomp, List.append_assoc,
        List.drop_append_of_le_length (by rw [lvLit_length]; omega)]
    rw [hdrop]
    exact litDropFail _ hk1 hk2 _
  · set p2 := u.drop 16 with hp2def
    have hdrop1 : (u ++ (m ++ r)).drop 16 = p2 ++ (m ++ r) :=
      List.drop_append_of_le_length hul
    have hdrop2 : (u ++ (blockNl ++ Y)).drop 16 = p2 ++ (blockNl ++ Y) :=
      List.drop_append_of_le_length hul
    rw [hdrop1] at hmt1
    rw [hdrop2]
    have hlitcons : lvLit = '#' :: "# Last Verified".data := rfl
    obtain ⟨V1, hV1⟩ : ∃ V, m ++ r = '#' :: V := by
      refine ⟨"# Last Verified".data ++ mtail ++ r, ?_⟩
      rw [← hm, hlitcons]
      simp
    obtain ⟨V2, hV2⟩ : ∃ V, blockNl ++ Y = '#' :: V := by
      refine ⟨"# Last Verified".data ++ ('\n' :: (lvL1 ++ (lvL2 ++ ['\n']))) ++ Y, ?_⟩
      rw [blockNl_decomp, hlitcons]
      simp
    rw [hV1] at hmt1
    rw [hV2]
    have hnws : isWs '#' = false := rfl
    set W := p2.takeWhile isWs with hW
    set p2r := p2.dropWhile isWs with hp2r
    have hsplit2 : ∀ (X : List Char), p2 ++ X = W ++ (p2r ++ X) := by
      intro X
      rw [hW, hp2r, ← List.append_assoc, List.takeWhile_append_dropWhile]
    have hWws : ∀ x ∈ W, isWs x = true := by
      intro x hx
      rw [hW] at hx
      exact List.mem_takeWhile_imp hx
    have hlbr : lazyBody r ≠ none := by
      rw [lazyBody_of_boundary hbr]
      simp
    have hWnl : '\n' ∉ W := by
      intro hmem
      obtain ⟨w1, w2, hWe, hw2⟩ := split_last_nl hmem
      have heq : p2 ++ ('#' :: V1) = w1 ++ '\n' :: (w2 ++ (p2r ++ '#' :: V1)) := by
        rw [hsplit2, hWe]
        simp
      rw [heq] at hmt1
      have hallws : ∀ x ∈ w1, isWs x = true := by
        intro x hx
        exact hWws x (by rw [hWe]; simp [hx])
      refine matchTail_complete w1 hallws ?_ hmt1
      rw [← hV1]
      by_cases hpr : p2r = []
      · rw [hpr]
        simp only [List.nil_append]
        obtain ⟨l, m2, hml, hlne, hlast, hbody, hm2cl⟩ :=
          linesClosed_firstLine hmne hmcl
        have heq2 : w2 ++ (m ++ r) = w2 ++ l ++ (m2 ++ r) := by
          rw [hml]
          simp
        rw [heq2]
        apply lazyBody_nlfree_line hw2 hlne hlast hbody
        exact lazyBody_append_ne_none m2.length m2 r (le_refl _) hm2cl hlbr
      · have hpne : p ≠ [] := by
          intro hh
          rw [hu, hh] at hul
          simp at hul
        have hp2ne : p2 ≠ [] := by
          intro hh
          rw [hp2r, hh] at hpr
          simp at hpr
        have h1 : p2r.getLast? = p2.getLast? :=
          suffix_getLast? (hp2r ▸ List.dropWhile_suffix isWs) hpr
        have h2 : p2.getLast? = u.getLast? :=
          suffix_getLast? (hp2def ▸ List.drop_suffix 16 u) hp2ne
        have h3 : u.getLast? = p.getLast? := by
          rw [hu, show c :: p = [c] ++ p from rfl,
            List.getLast?_append_of_ne_nil [c] hpne]
        have h4 : p.getLast? = some '\n' := by
          rcases hpc with rfl | h4
          · exact absurd rfl hpne
          · exact h4
        have hcl2 : linesClosed (w2 ++ p2r) := by
          apply linesClosed_append_right hpr
          right
          rw [h1, h2, h3, h4]
        have heq2 : w2 ++ (p2r ++ (m ++ r)) = (w2 ++ p2r) ++ (m ++ r) := by simp
        rw [heq2]
        apply lazyBody_append_ne_none (w2 ++ p2r).length _ _ (le_refl _) hcl2
        exact lazyBody_append_ne_none m.length m r (le_refl _) hmcl hlbr
    rw [hsplit2]
    have hWok : ∀ x ∈ W, isWs x = true ∧ x ≠ '\n' := by
      intro x hx
      refine ⟨hWws x hx, ?_⟩
      rintro rfl
      exact hWnl hx
    cases hpr : p2r with
    | nil =>
      simp only [List.nil_append]
      exact runFail W hWok hnws V2
    | cons d pr2 =>
      have hdws : isWs d = false := dropWhile_head_false (hp2r.symm.trans hpr)
      have heq3 : W ++ ((d :: pr2) ++ '#' :: V2) = W ++ (d :: (pr2 ++ '#' :: V2)) := by
        simp
      rw [heq3]
      exact runFail W hWok hdws _

theorem sharp_prefix_iff {s : List Char} :
    "## ".data <+: s ↔ s.take 3 = "## ".data := by
  rw [List.prefix_iff_eq_take, show ("## ".data).length = 3 from rfl]
  exact ⟨fun h => h.symm, fun h => h.symm⟩

/-- After rewriting, the rest following a replaced match still is empty or a
blank line followed by a sibling header. -/
theorem subAll_shape_of_boundary {r : List Char} (hbr : boundary r = true) :
    subAll r true = [] ∨ ∃ Z, subAll r true = '\n' :: Z ∧ "## ".data <+: Z := by
  rcases boundary_shape hbr with rfl | ⟨Z0, rfl, hz⟩
  · left
    rfl
  · right
    rw [subAll_unfold, if_pos rfl, matchAt_head_ne (by decide) Z0]
    dsimp only
    refine ⟨subAll Z0 ('\n' = '\n'), rfl, ?_⟩
    rw [sharp_prefix_iff]
    have h16 := subAll_take16 Z0.length Z0 ('\n' = '\n') (le_refl _)
    have h3 : (subAll Z0 ('\n' = '\n')).take 3
        = ((subAll Z0 ('\n' = '\n')).take 16).take 3 := by
      rw [List.take_take]
      norm_num
    rw [h3, h16, List.take_take]
    have : Z0.take 3 = "## ".data := sharp_prefix_iff.mp hz
    simpa using this

/-- The scan maps a replaced block followed by well-shaped rest to the block
plus the scan of the rest. -/
theorem subAll_blockNl {Y : List Char}
    (h : Y = [] ∨ ∃ Z, Y = '\n' :: Z ∧ "## ".data <+: Z) :
    subAll (blockNl ++ Y) true = blockNl ++ subAll Y true := by
  have hcons : blockNl ++ Y
      = '#' :: ("# Last Verified".data
          ++ ('\n' :: (lvL1 ++ (lvL2 ++ ['\n']))) ++ Y) := by
    rw [blockNl_decomp, show lvLit = '#' :: "# Last Verified".data from rfl]
    simp
  rw [hcons, subAll_unfold, if_pos rfl, ← hcons, matchAt_blockNl h]

theorem subAll_idem_aux : ∀ (n : Nat) (s : List Char) (b : Bool), s.length ≤ n →
    subAll (subAll s b) b = subAll s b := by
  intro n
  induction n with
  | zero =>
    intro s b hlen
    have hs : s = [] := List.eq_nil_of_length_eq_zero (by omega)
    subst hs
    rfl
  | succ n ih =>
    intro s b hlen
    cases s with
    | nil => rfl
    | cons c t =>
      by_cases hb : b
      · subst hb
        cases hma : matchAt (c :: t) with
        | none =>
          rw [subAll_unfold, if_pos rfl, hma]
          dsimp only
          rw [subAll_unfold, if_pos rfl, keyLemma _ hma]
          dsimp only
          rw [ih t (c = '\n') (by simp at hlen; omega)]
        | some pr =>
          obtain ⟨m, r⟩ := pr
          rw [subAll_unfold, if_pos rfl, hma]
          dsimp only
          obtain ⟨hmr, -, hmne, -, hbr⟩ := matchAt_eq hma
          rw [subAll_blockNl (subAll_shape_of_boundary hbr)]
          congr 1
          refine ih r true ?_
          have : (c :: t).length = m.length + r.length := by
            rw [hmr, List.length_append]
          have hmpos : 0 < m.length := List.length_pos.mpr hmne
          simp only [List.length_cons] at this hlen
          omega
      · rw [subAll_unfold, if_neg hb, subAll_unfold, if_neg hb]
        congr 1
        exact ih t (c = '\n') (by simp at hlen; omega)

/-- Idempotence of the substitution scan itself. -/
theorem subAll_idem (s : List Char) (b : Bool) :
    subAll (subAll s b) b = subAll s b :=
  subAll_idem_aux s.length s b (le_refl _)

theorem matchAt_nil : matchAt [] = none := rfl

theorem hasMatch_append_of : ∀ (p : List Char) (b : Bool) (v : List Char),
    linesClosed p → (p = [] → b = true) → (matchAt v).isSome = true →
    hasMatch (p ++ v) b = true := by
  intro p
  induction p with
  | nil =>
    intro b v _ hb hv
    rw [hb rfl]
    cases v with
    | nil => rw [matchAt_nil] at hv; simp at hv
    | cons x xs =>
      simp only [List.nil_append, hasMatch, Bool.true_and, hv, if_pos]
  | cons a p2 ih =>
    intro b v hcl hb hv
    show hasMatch (a :: (p2 ++ v)) b = true
    rw [show hasMatch (a :: (p2 ++ v)) b
        = if b && (matchAt (a :: (p2 ++ v))).isSome then true
          else hasMatch (p2 ++ v) (a = '\n') from rfl]
    by_cases hcond : (b && (matchAt (a :: (p2 ++ v))).isSome) = true
    · rw [if_pos hcond]
    · rw [if_neg hcond]
      apply ih _ v ?_ ?_ hv
      · rcases List.eq_nil_or_concat p2 with rfl | ⟨p3, x, rfl⟩
        · exact Or.inl rfl
        · rcases hcl with hcl | hcl
          · simp at hcl
          · right
            rw [show a :: p3.concat x = [a] ++ p3.concat x from rfl,
              List.getLast?_append_of_ne_nil [a] (by simp)] at hcl
            exact hcl
      · intro hp2
        subst hp2
        rcases hcl with hcl | hcl
        · simp at hcl
        · simp only [List.getLast?_singleton] at hcl
          have : a = '\n' := by injection hcl
          subst this
          exact decide_eq_true rfl

/-- The rewritten document still contains a match. -/
theorem hasMatch_subAll {s : List Char} {b : Bool} (h : hasMatch s b = true) :
    hasMatch (subAll s b) b = true := by
  rcases scanSplit s.length s b (le_refl _) with ⟨hm, -⟩ | hsplit
  · rw [hm] at h
    simp at h
  obtain ⟨p, m, r, he, hma, hs, hp0, hpc⟩ := hsplit
  rw [hs]
  obtain ⟨-, -, -, -, hbr⟩ := matchAt_eq hma
  have hshape := subAll_shape_of_boundary hbr
  have hsome : (matchAt (blockNl ++ subAll r true)).isSome = true := by
    rw [matchAt_blockNl hshape]
    rfl
  have hassoc : p ++ blockNl ++ subAll r true = p ++ (blockNl ++ subAll r true) := by
    simp
  rw [hassoc]
  exact hasMatch_append_of p b _ hpc hp0 hsome

/-- When the section pattern matches, applying `upsert_last_verified` twice
gives the same text as applying it once. -/
theorem upsert_idem_of_hasMatch {txt : List Char} (h : hasMatch txt true = true) :
    upsert_last_verified (upsert_last_verified txt) = upsert_last_verified txt := by
  have h1 : upsert_last_verified txt = subAll txt true := by
    unfold upsert_last_verified
    rw [if_pos h]
  rw [h1]
  unfold upsert_last_verified
  rw [if_pos (hasMatch_subAll h), subAll_idem]

/-! ### The append path: `txt.rstrip()` -/

theorem rstrip_decomp (txt : List Char) :
    txt = rstrip txt ++ (txt.reverse.takeWhile isWs).reverse := by
  have h : txt.reverse.takeWhile isWs ++ txt.reverse.dropWhile isWs = txt.reverse := by
    rw [List.takeWhile_append_dropWhile]
  conv_lhs => rw [← List.reverse_reverse txt, ← h]
  rw [List.reverse_append]
  rfl

theorem rstrip_ws {txt : List Char} :
    ∀ x ∈ (txt.reverse.takeWhile isWs).reverse, isWs x = true := by
  intro x hx
  rw [List.mem_reverse] at hx
  exact List.mem_takeWhile_imp hx

theorem rstrip_prefix (txt : List Char) : rstrip txt <+: txt := by
  conv_rhs => rw [rstrip_decomp txt]
  exact List.prefix_append _ _

theorem rstrip_last (txt : List Char) :
    rstrip txt = [] ∨ ∃ ch, (rstrip txt).getLast? = some ch ∧ isWs ch = false := by
  unfold rstrip
  cases hd : txt.reverse.dropWhile isWs with
  | nil => left; rfl
  | cons c t =>
    right
    refine ⟨c, ?_, dropWhile_head_false hd⟩
    rw [List.getLast?_reverse]
    rfl

theorem matchTail_nl (t : List Char) :
    matchTail ('\n' :: t) =
      match matchTail t with
      | some (b, r) => some ('\n' :: b, r)
      | none =>
        match lazyBody t with
        | some (b, r) => some ('\n' :: b, r)
        | none => none := rfl

theorem matchTail_nl_of {t b r : List Char} (h1 : matchTail t = none)
    (h2 : lazyBody t = some (b, r)) :
    matchTail ('\n' :: t) = some ('\n' :: b, r) := by
  rw [matchTail_nl, h1]
  dsimp only
  rw [h2]

/-! ### A header directly followed by a sibling header -/

/-- With a newline-terminated remainder, a `## Last Verified` header that is
immediately followed by another `## ` header still matches, and the matched
span runs through the sibling header. -/
theorem matchAt_sibling {v : List Char} (hne : v ≠ [])
    (hlast : v.getLast? = some '\n') :
    ∃ b r, v = b ++ r ∧
      matchAt (lvLit ++ '\n' :: ("## ".data ++ v))
        = some (lvLit ++ '\n' :: ("## ".data ++ b), r) := by
  have hnl : '\n' ∈ v := by
    obtain ⟨h1, h2⟩ := List.mem_getLast?_eq_getLast (Option.mem_def.mpr hlast)
    rw [h2]
    exact List.getLast_mem h1
  obtain ⟨a, v2, rfl, hna⟩ := split_first_nl hnl
  have hv2cl : linesClosed v2 := by
    rcases List.eq_nil_or_concat v2 with rfl | ⟨v3, x, rfl⟩
    · exact Or.inl rfl
    · right
      have he2 : a ++ '\n' :: v3.concat x = (a ++ ['\n']) ++ v3.concat x := by simp
      rw [he2, List.getLast?_append_of_ne_nil _ (by simp)] at hlast
      exact hlast
  have hlbv2 : lazyBody v2 ≠ none := by
    have := lazyBody_append_ne_none v2.length v2 [] (le_refl _) hv2cl
      (by rw [show lazyBody [] = some ([], []) from rfl]; simp)
    simpa using this
  cases hlb : lazyBody v2 with
  | none => exact absurd hlb hlbv2
  | some pr =>
    obtain ⟨b2, rr⟩ := pr
    obtain ⟨hv2e, -, -⟩ := lazyBody_eq hlb
    refine ⟨a ++ '\n' :: b2, rr, by rw [hv2e]; simp, ?_⟩
    have hlb2 : lazyBody ("## ".data ++ (a ++ '\n' :: v2))
        = some ((("## ".data ++ a) ++ ['\n']) ++ b2, rr) := by
      rw [lazyBody_unfold]
      have hbf : boundary ("## ".data ++ (a ++ '\n' :: v2)) = false := by
        rw [show "## ".data ++ (a ++ '\n' :: v2)
          = '#' :: ("# ".data ++ (a ++ '\n' :: v2)) from by simp]
        exact boundary_head_ne (by decide) _
      rw [hbf]
      simp only [Bool.false_eq_true, if_false]
      have heq : "## ".data ++ (a ++ '\n' :: v2) = ("## ".data ++ a) ++ '\n' :: v2 := by
        simp
      rw [heq, takeLine_append_nl (by
        simp only [List.mem_append]
        rintro (hmem | hmem)
        · simp at hmem
        · exact hna hmem) v2]
      dsimp only
      rw [hlb]
    have hmtnone : matchTail ("## ".data ++ (a ++ '\n' :: v2)) = none := by
      rw [show "## ".data ++ (a ++ '\n' :: v2)
        = '#' :: ("# ".data ++ (a ++ '\n' :: v2)) from by simp]
      exact matchTail_nonWs_head (by decide) _
    have hmt : matchTail ('\n' :: ("## ".data ++ (a ++ '\n' :: v2)))
        = some ('\n' :: ((("## ".data ++ a) ++ ['\n']) ++ b2), rr) :=
      matchTail_nl_of hmtnone hlb2
    unfold matchAt
    rw [if_pos (lit_prefix_iff.mpr (take_lit_append _)), lvLit_length,
      show List.drop 16 (lvLit ++ '\n' :: ("## ".data ++ (a ++ '\n' :: v2)))
        = '\n' :: ("## ".data ++ (a ++ '\n' :: v2)) from by
        rw [← lvLit_length, List.drop_left], hmt]
    simp

/-! ### The scan as an edit list: spans plus a single splice pass -/

theorem matchSpansF_fuel : ∀ {n m : Nat} {s : List Char} {b : Bool} {pos : Nat},
    s.length < n → s.length < m → matchSpansF n s b pos = matchSpansF m s b pos := by
  intro n
  induction n with
  | zero => intro m s b pos h; omega
  | succ n ih =>
    intro m s b pos hn hm
    cases m with
    | zero => omega
    | succ m =>
      cases s with
      | nil => rfl
      | cons c t =>
        simp only [matchSpansF]
        by_cases hb : b
        · subst hb
          simp only [if_pos rfl]
          cases hma : matchAt (c :: t) with
          | some pr =>
            obtain ⟨m2, r⟩ := pr
            have hlen := matchAt_rest_length hma
            simp only [List.length_cons] at hn hm hlen
            have h2 : matchSpansF n r true (pos + m2.length)
                = matchSpansF m r true (pos + m2.length) := ih (by omega) (by omega)
            dsimp only
            rw [h2]
            simp
          | none =>
            simp only [List.length_cons] at hn hm
            have h2 : matchSpansF n t (c = '\n') (pos + 1)
                = matchSpansF m t (c = '\n') (pos + 1) := ih (by omega) (by omega)
            dsimp only
            rw [h2]
        · simp only [if_neg hb]
          simp only [List.length_cons] at hn hm
          exact ih (by omega) (by omega)

theorem matchSpansF_unfold (c : Char) (t : List Char) (b : Bool) (pos : Nat) :
    matchSpansF ((c :: t).length + 1) (c :: t) b pos =
      if b then
        match matchAt (c :: t) with
        | some (m, r) =>
          (pos, pos + m.length) :: matchSpansF (r.length + 1) r true (pos + m.length)
        | none => matchSpansF (t.length + 1) t (c = '\n') (pos + 1)
      else matchSpansF (t.length + 1) t (c = '\n') (pos + 1) := by
  simp only [matchSpansF]
  by_cases hb : b
  · subst hb
    simp only [if_pos rfl]
    cases hma : matchAt (c :: t) with
    | some pr =>
      obtain ⟨m2, r⟩ := pr
      have hlen := matchAt_rest_length hma
      have h2 : matchSpansF (c :: t).length r true (pos + m2.length)
          = matchSpansF (r.length + 1) r true (pos + m2.length) :=
        matchSpansF_fuel (by simp only [List.length_cons] at hlen ⊢; omega)
          (Nat.lt_succ_self _)
      dsimp only
      rw [h2]
      simp
    | none =>
      have h2 : matchSpansF (c :: t).length t (c = '\n') (pos + 1)
          = matchSpansF (t.length + 1) t (c = '\n') (pos + 1) :=
        matchSpansF_fuel (by simp) (Nat.lt_succ_self _)
      dsimp only
      rw [h2]
  · simp only [if_neg hb]
    exact matchSpansF_fuel (by simp) (Nat.lt_succ_self _)

/-- Shifting the offset argument shifts every reported span. -/
theorem matchSpansF_shift : ∀ (n : Nat) (s : List Char) (b : Bool) (pos : Nat),
    s.length ≤ n → matchSpansF (s.length + 1) s b pos
      = (matchSpansF (s.length + 1) s b 0).map
          (fun sp => (sp.1 + pos, sp.2 + pos)) := by
  intro n
  induction n with
  | zero =>
    intro s b pos hlen
    have hs : s = [] := List.eq_nil_of_length_eq_zero (by omega)
    subst hs
    rfl
  | succ n ih =>
    intro s b pos hlen
    cases s with
    | nil => rfl
    | cons c t =>
      rw [matchSpansF_unfold, matchSpansF_unfold]
      by_cases hb : b
      · subst hb
        rw [if_pos rfl, if_pos rfl]
        cases hma : matchAt (c :: t) with
        | some pr =>
          obtain ⟨m2, r⟩ := pr
          dsimp only
          have hlen2 := matchAt_rest_length hma
          simp only [List.length_cons] at hlen hlen2
          rw [ih r true (pos + m2.length) (by omega),
            ih r true (0 + m2.length) (by omega)]
          simp only [List.map_map, List.map_cons]
          congr 1
          · simp only [Prod.mk.injEq]
            omega
          · apply List.map_congr_left
            intro sp hsp
            simp only [Function.comp_apply, Prod.mk.injEq]
            omega
        | none =>
          dsimp only
          simp only [List.length_cons] at hlen
          rw [ih t (c = '\n') (pos + 1) (by omega), ih t (c = '\n') (0 + 1) (by omega)]
          simp only [List.map_map]
          apply List.map_congr_left
          intro sp hsp
          simp only [Function.comp_apply, Prod.mk.injEq]
          omega
      · rw [if_neg hb, if_neg hb]
        simp only [List.length_cons] at hlen
        rw [ih t (c = '\n') (pos + 1) (by omega), ih t (c = '\n') (0 + 1) (by omega)]
        simp only [List.map_map]
        apply List.map_congr_left
        intro sp hsp
        simp only [Function.comp_apply, Prod.mk.injEq]
        omega

theorem replaceSpans_cons_shift (c : Char) (txt : List Char)
    (spans : List (Nat × Nat)) :
    replaceSpans (c :: txt) (spans.map (fun sp => (sp.1 + 1, sp.2 + 1)))
      = c :: replaceSpans txt spans := by
  induction spans with
  | nil => rfl
  | cons sp rest ih =>
    obtain ⟨s, e⟩ := sp
    simp only [List.map_cons, replaceSpans, List.foldr_cons] at *
    rw [ih, List.take_succ_cons, List.drop_succ_cons]
    rfl

theorem replaceSpans_append_shift (u txt : List Char)
    (spans : List (Nat × Nat)) :
    replaceSpans (u ++ txt)
        (spans.map (fun sp => (sp.1 + u.length, sp.2 + u.length)))
      = u ++ replaceSpans txt spans := by
  induction spans with
  | nil => rfl
  | cons sp rest ih =>
    obtain ⟨s, e⟩ := sp
    simp only [List.map_cons, replaceSpans, List.foldr_cons] at *
    rw [ih, Nat.add_comm s u.length, Nat.add_comm e u.length, List.take_append,
      List.drop_append]
    simp

theorem subAll_eq_replaceSpans_aux : ∀ (n : Nat) (s : List Char) (b : Bool),
    s.length ≤ n → subAll s b = replaceSpans s (matchSpans s b) := by
  intro n
  induction n with
  | zero =>
    intro s b hlen
    have hs : s = [] := List.eq_nil_of_length_eq_zero (by omega)
    subst hs
    rfl
  | succ n ih =>
    intro s b hlen
    cases s with
    | nil => rfl
    | cons c t =>
      rw [subAll_unfold]
      unfold matchSpans
      rw [matchSpansF_unfold]
      by_cases hb : b
      · subst hb
        rw [if_pos rfl, if_pos rfl]
        cases hma : matchAt (c :: t) with
        | some pr =>
          obtain ⟨m, r⟩ := pr
          dsimp only
          obtain ⟨hmr, -, hmne, -, -⟩ := matchAt_eq hma
          have hrlen : r.length ≤ n := by
            have := matchAt_rest_length hma
            simp only [List.length_cons] at this hlen
            omega
          have hshift := matchSpansF_shift r.length r true (0 + m.length)
            (le_refl _)
          rw [hshift]
          show _ = replaceSpans (c :: t)
            ((0, 0 + m.length) :: (matchSpans r true).map
              (fun sp => (sp.1 + (0 + m.length), sp.2 + (0 + m.length))))
          simp only [Nat.zero_add]
          have hstep : replaceSpans (c :: t)
              ((0, m.length) :: (matchSpans r true).map
                (fun sp => (sp.1 + m.length, sp.2 + m.length)))
              = (replaceSpans (c :: t) ((matchSpans r true).map
                  (fun sp => (sp.1 + m.length, sp.2 + m.length)))).take 0
                ++ blockNl
                ++ (replaceSpans (c :: t) ((matchSpans r true).map
                  (fun sp => (sp.1 + m.length, sp.2 + m.length)))).drop m.length := rfl
          rw [hstep, hmr]
          have : replaceSpans (m ++ r) ((matchSpans r true).map
              (fun sp => (sp.1 + m.length, sp.2 + m.length)))
              = m ++ replaceSpans r (matchSpans r true) :=
            replaceSpans_append_shift m r (matchSpans r true)
          rw [this]
          rw [List.take_zero, List.nil_append, List.drop_left]
          rw [ih r true hrlen]
        | none =>
          dsimp only
          have htlen : t.length ≤ n := by
            simp only [List.length_cons] at hlen
            omega
          have hshift := matchSpansF_shift t.length t (c = '\n') (0 + 1)
            (le_refl _)
          rw [hshift]
          simp only [Nat.zero_add]
          rw [replaceSpans_cons_shift, ih t (c = '\n') htlen]
          rfl
      · rw [if_neg hb, if_neg hb]
        have htlen : t.length ≤ n := by
          simp only [List.length_cons] at hlen
          omega
        have hshift := matchSpansF_shift t.length t (c = '\n') (0 + 1) (le_refl _)
        rw [hshift]
        simp only [Nat.zero_add]
        rw [replaceSpans_cons_shift, ih t (c = '\n') htlen]
        rfl

/-- The scan-with-inline-replacement agrees with collecting all spans first
and splicing the canonical block over each, rightmost first. -/
theorem subAll_eq_replaceSpans (s : List Char) (b : Bool) :
    subAll s b = replaceSpans s (matchSpans s b) :=
  subAll_eq_replaceSpans_aux s.length s b (le_refl _)

/-! ### `BlockDeduplicator`: the duplicate-cookie-finding removal

The script collects, for each pattern of `cookie_patterns`, all
non-overlapping matches via `re.finditer`, merges and sorts them, keeps the
earliest and removes the rest (highest offset first, each replaced by a
single newline).  The two patterns are embedded as backtracking matcher
functions; a locator is such a function.  Python sorts the collected
`(start, end, pattern)` tuples, breaking ties by the pattern *string*; for
`cookie_patterns` that string order agrees with the declaration order
(`"(?s)###..." < "(?s)##\\s..."` since `'#' < '\\'`), so the model sorts by
`(start, end, pattern index)`. -/

theorem dedupe_eq_removeSpans (ls : List Matcher) (doc : List Char)
    (h : 1 < (dedupeSpans ls doc).length) :
    dedupe ls doc
      = removeSpans doc (((dedupeSpans ls doc).drop 1).map (fun x => (x.1, x.2.1))) := by
  simp only [dedupe]
  rw [show sortLE (matchesOf ls 0 doc) = dedupeSpans ls doc from rfl, if_pos h]
  rw [List.foldl_reverse]
  unfold removeSpans
  rw [List.foldr_map]

theorem dedupe_short (ls : List Matcher) (doc : List Char)
    (h : ¬ 1 < (dedupeSpans ls doc).length) : dedupe ls doc = doc := by
  simp only [dedupe]
  rw [show sortLE (matchesOf ls 0 doc) = dedupeSpans ls doc from rfl, if_neg h]

theorem spansOK_cons (k L s e : Nat) (rest : List (Nat × Nat)) :
    spansOK k L ((s, e) :: rest)
      = (decide (k ≤ s) && decide (s ≤ e) && decide (e ≤ L) && spansOK e L rest) := rfl

theorem cutSpansOff_cons (txt : List Char) (o s e : Nat) (rest : List (Nat × Nat)) :
    cutSpansOff txt o ((s, e) :: rest)
      = txt.take (s - o) ++ '\n' :: cutSpansOff (txt.drop (e - o)) e rest := rfl

theorem removeSpans_cons (txt : List Char) (s e : Nat) (rest : List (Nat × Nat)) :
    removeSpans txt ((s, e) :: rest)
      = (removeSpans txt rest).take s ++ '\n' :: (removeSpans txt rest).drop e := rfl

theorem spansOK_mono : ∀ (sp : List (Nat × Nat)) (k k2 L : Nat),
    k2 ≤ k → spansOK k L sp = true → spansOK k2 L sp = true
  | [], _, _, _, _, _ => rfl
  | (s, e) :: rest, k, k2, L, hk, h => by
    rw [spansOK_cons] at h ⊢
    simp only [Bool.and_eq_true, decide_eq_true_eq] at h ⊢
    exact ⟨⟨⟨le_trans hk h.1.1.1, h.1.1.2⟩, h.1.2⟩, h.2⟩

theorem spansOK_shift : ∀ (sp : List (Nat × Nat)) (k L e : Nat),
    spansOK k L sp = true →
    spansOK (k - e) (L - e) (sp.map fun x => (x.1 - e, x.2 - e)) = true
  | [], _, _, _, _ => rfl
  | (s, q) :: rest, k, L, e, h => by
    rw [spansOK_cons] at h
    simp only [Bool.and_eq_true, decide_eq_true_eq] at h
    rw [List.map_cons, spansOK_cons]
    simp only [Bool.and_eq_true, decide_eq_true_eq]
    refine ⟨⟨⟨?_, ?_⟩, ?_⟩, spansOK_shift rest q L e h.2⟩
    · omega
    · omega
    · omega

theorem removeSpans_decomp : ∀ (sp : List (Nat × Nat)) (txt : List Char) (e : Nat),
    e ≤ txt.length → spansOK e txt.length sp = true →
    removeSpans txt sp
      = txt.take e ++ removeSpans (txt.drop e) (sp.map fun x => (x.1 - e, x.2 - e)) := by
  intro sp
  induction sp with
  | nil =>
    intro txt e _ _
    exact (List.take_append_drop e txt).symm
  | cons hd rest ih =>
    obtain ⟨s1, q1⟩ := hd
    intro txt e he h
    rw [spansOK_cons] at h
    simp only [Bool.and_eq_true, decide_eq_true_eq] at h
    obtain ⟨⟨⟨hes, hsq⟩, hqL⟩, hrest⟩ := h
    have hE : e ≤ q1 := le_trans hes hsq
    have hX := ih txt e he (spansOK_mono rest q1 e txt.length hE hrest)
    rw [removeSpans_cons, hX, List.map_cons, removeSpans_cons]
    have hlenA : (txt.take e).length = e := by
      rw [List.length_take]; omega
    rw [List.take_append_eq_append_take, List.drop_append_eq_append_drop, hlenA]
    have hTA : (txt.take e).take s1 = txt.take e :=
      List.take_of_length_le (by rw [hlenA]; exact hes)
    have hDA : (txt.take e).drop q1 = ([] : List Char) :=
      List.drop_eq_nil_of_le (by rw [hlenA]; exact hE)
    rw [hTA, hDA, List.nil_append, List.append_assoc]

theorem removeSpans_cut_aux : ∀ (sp : List (Nat × Nat)) (txt : List Char) (e : Nat),
    spansOK e (e + txt.length) sp = true →
    removeSpans txt (sp.map fun x => (x.1 - e, x.2 - e)) = cutSpansOff txt e sp := by
  intro sp
  induction sp with
  | nil => intro txt e _; rfl
  | cons hd rest ih =>
    obtain ⟨s1, q1⟩ := hd
    intro txt e h
    rw [spansOK_cons] at h
    simp only [Bool.and_eq_true, decide_eq_true_eq] at h
    obtain ⟨⟨⟨hes, hsq⟩, hqL⟩, hrest⟩ := h
    rw [List.map_cons, removeSpans_cons]
    have hok : spansOK (q1 - e) txt.length (rest.map fun x => (x.1 - e, x.2 - e)) = true := by
      have h2 := spansOK_shift rest q1 (e + txt.length) e hrest
      rw [Nat.add_sub_cancel_left] at h2
      exact h2
    have hqle : q1 - e ≤ txt.length := by omega
    have hX := removeSpans_decomp (rest.map fun x => (x.1 - e, x.2 - e)) txt (q1 - e) hqle hok
    have hmm : ((rest.map fun x => (x.1 - e, x.2 - e)).map
          fun x => (x.1 - (q1 - e), x.2 - (q1 - e)))
        = rest.map fun x => (x.1 - q1, x.2 - q1) := by
      rw [List.map_map]
      apply List.map_congr_left
      intro x _
      simp only [Function.comp]
      rw [Prod.mk.injEq]
      constructor
      · omega
      · omega
    rw [hmm] at hX
    rw [hX]
    have hok2 : spansOK q1 (q1 + (txt.drop (q1 - e)).length) rest = true := by
      rw [List.length_drop, show q1 + (txt.length - (q1 - e)) = e + txt.length by omega]
      exact hrest
    have hW := ih (txt.drop (q1 - e)) q1 hok2
    rw [hW]
    have hlenA : (txt.take (q1 - e)).length = q1 - e := by
      rw [List.length_take]; omega
    rw [List.take_append_eq_append_take, List.drop_append_eq_append_drop, hlenA]
    rw [show s1 - e - (q1 - e) = 0 by omega, List.take_zero, List.append_nil]
    rw [Nat.sub_self, List.drop_zero]
    have hDA : (txt.take (q1 - e)).drop (q1 - e) = ([] : List Char) :=
      List.drop_eq_nil_of_le (by rw [hlenA])
    rw [hDA, List.nil_append, List.take_take,
      show min (s1 - e) (q1 - e) = s1 - e by omega]
    rw [cutSpansOff_cons]

theorem removeSpans_eq_cut (sp : List (Nat × Nat)) (txt : List Char)
    (h : spansOK 0 txt.length sp = true) :
    removeSpans txt sp = cutSpansOff txt 0 sp := by
  have h0 : spansOK 0 (0 + txt.length) sp = true := by rw [Nat.zero_add]; exact h
  have h1 := removeSpans_cut_aux sp txt 0 h0
  rw [show (sp.map fun x => (x.1 - 0, x.2 - 0)) = sp by simp] at h1
  exact h1

/-- The `dedupe` removal characterised as a one-pass left-to-right splice,
whenever the removed spans are sorted, pairwise disjoint and in bounds. -/
theorem dedupe_cut (ls : List Matcher) (doc : List Char)
    (h : spansOK 0 doc.length
      (((dedupeSpans ls doc).drop 1).map fun x => (x.1, x.2.1)) = true) :
    dedupe ls doc
      = if 1 < (dedupeSpans ls doc).length then
          cutSpansOff doc 0 (((dedupeSpans ls doc).drop 1).map fun x => (x.1, x.2.1))
        else doc := by
  by_cases h1 : 1 < (dedupeSpans ls doc).length
  · rw [if_pos h1, dedupe_eq_removeSpans ls doc h1, removeSpans_eq_cut _ _ h]
  · rw [if_neg h1]
    exact dedupe_short ls doc h1

/-! ### Lines: `str.splitlines(True)` and joining

The handoff and findings documents use `'\n'` as their only line break, so
`splitlines(True)` is modelled as splitting on `'\n'` with each piece
keeping its newline; a final piece without a newline is kept as a last
line. -/

/-! ### `LineFieldPatcher`: the handoff-packet rewrites -/

/-! ### The Auth Contract insertion -/

/-! ### Line split and join: basic equations -/

theorem splitKEF_irrel : ∀ (n : Nat) (s : List Char) (m : Nat),
    s.length < n → s.length < m → splitKEF n s = splitKEF m s := by
  intro n
  induction n with
  | zero => intro s m h _; exact absurd h (by omega)
  | succ n ih =>
    intro s m hn hm
    cases m with
    | zero => exact absurd hm (by omega)
    | succ m2 =>
      cases s with
      | nil => rfl
      | cons c t =>
        show (match takeLine (c :: t) with
            | some (l, r) => l :: splitKEF n r
            | none => [c :: t])
          = (match takeLine (c :: t) with
            | some (l, r) => l :: splitKEF m2 r
            | none => [c :: t])
        cases htl : takeLine (c :: t) with
        | none => rfl
        | some pr =>
          obtain ⟨l, r⟩ := pr
          have hr := takeLine_length htl
          simp only [List.length_cons] at hn hm hr
          dsimp only
          rw [ih r m2 (by omega) (by omega)]

theorem splitKE_line {s l r : List Char} (h : takeLine s = some (l, r)) :
    splitKE s = l :: splitKE r := by
  cases s with
  | nil => exact absurd h (by simp [takeLine])
  | cons c t =>
    show splitKEF ((c :: t).length + 1) (c :: t) = _
    rw [show splitKEF ((c :: t).length + 1) (c :: t)
        = (match takeLine (c :: t) with
          | some (l, r) => l :: splitKEF (c :: t).length r
          | none => [c :: t]) from rfl, h]
    have hr := takeLine_length h
    dsimp only
    rw [splitKEF_irrel (c :: t).length r (r.length + 1) hr (by omega)]
    rfl

theorem splitKE_noline {s : List Char} (hne : s ≠ []) (h : takeLine s = none) :
    splitKE s = [s] := by
  cases s with
  | nil => exact absurd rfl hne
  | cons c t =>
    show splitKEF ((c :: t).length + 1) (c :: t) = _
    rw [show splitKEF ((c :: t).length + 1) (c :: t)
        = (match takeLine (c :: t) with
          | some (l, r) => l :: splitKEF (c :: t).length r
          | none => [c :: t]) from rfl, h]

theorem joinKE_cons (l : List Char) (rest : List (List Char)) :
    joinKE (l :: rest) = l ++ joinKE rest := rfl

theorem joinKE_splitKE_aux : ∀ (n : Nat) (s : List Char),
    s.length ≤ n → joinKE (splitKE s) = s := by
  intro n
  induction n with
  | zero =>
    intro s h
    have : s = [] := List.length_eq_zero.mp (by omega)
    subst this
    rfl
  | succ n ih =>
    intro s hn
    cases htl : takeLine s with
    | some pr =>
      obtain ⟨l, r⟩ := pr
      rw [splitKE_line htl, joinKE_cons]
      have hr := takeLine_length htl
      rw [ih r (by omega)]
      exact ((takeLine_eq htl).1).symm
    | none =>
      cases hs : s with
      | nil => rfl
      | cons c t =>
        rw [← hs, splitKE_noline (by rw [hs]; exact List.cons_ne_nil c t) htl]
        show s ++ [] = s
        exact List.append_nil s

theorem joinKE_splitKE (s : List Char) : joinKE (splitKE s) = s :=
  joinKE_splitKE_aux s.length s (le_refl _)

theorem nl_mem_of_getLast {l : List Char} (h : l.getLast? = some '\n') : '\n' ∈ l := by
  obtain ⟨hne, hg⟩ := List.mem_getLast?_eq_getLast (Option.mem_def.mpr h)
  rw [hg]
  exact List.getLast_mem hne

theorem properLines_cases {l : List Char} {rest : List (List Char)}
    (h : ProperLines (l :: rest)) :
    (l ≠ [] ∧ '\n' ∉ l.dropLast) ∧ (rest ≠ [] → l.getLast? = some '\n' ∧ ProperLines rest) := by
  cases rest with
  | nil => exact ⟨h, fun hc => absurd rfl hc⟩
  | cons r1 r2 =>
    obtain ⟨h1, h2, h3, h4⟩ := h
    exact ⟨⟨h1, h3⟩, fun _ => ⟨h2, h4⟩⟩

theorem properLines_splitKE_aux : ∀ (n : Nat) (s : List Char),
    s.length ≤ n → ProperLines (splitKE s) := by
  intro n
  induction n with
  | zero =>
    intro s h
    have : s = [] := List.length_eq_zero.mp (by omega)
    subst this
    exact trivial
  | succ n ih =>
    intro s hn
    cases htl : takeLine s with
    | some pr =>
      obtain ⟨l, r⟩ := pr
      rw [splitKE_line htl]
      obtain ⟨-, hne, hlast, hbody⟩ := takeLine_eq htl
      have hr := takeLine_length htl
      have hrest := ih r (by omega)
      cases hsp : splitKE r with
      | nil => exact ⟨hne, hbody⟩
      | cons a b =>
        rw [hsp] at hrest
        exact ⟨hne, hlast, hbody, hrest⟩
    | none =>
      cases hs : s with
      | nil => exact trivial
      | cons c t =>
        rw [← hs, splitKE_noline (by rw [hs]; exact List.cons_ne_nil c t) htl]
        have hnl : '\n' ∉ s := takeLine_none htl
        exact ⟨by rw [hs]; exact List.cons_ne_nil c t,
          fun hc => hnl (List.dropLast_sublist s |>.mem hc)⟩

theorem properLines_splitKE (s : List Char) : ProperLines (splitKE s) :=
  properLines_splitKE_aux s.length s (le_refl _)

/-! ### `re.sub` scan: fuel equations -/

theorem reSubF_cons (f : Matcher) (rep : List Char) (n : Nat) (c : Char)
    (t : List Char) (b : Bool) :
    reSubF f rep (n + 1) (c :: t) b
      = if b then
          match f (c :: t) with
          | some (m, r) =>
            if m.isEmpty then rep ++ c :: reSubF f rep n t (c == '\n')
            else rep ++ reSubF f rep n r (m.getLast? == some '\n')
          | none => c :: reSubF f rep n t (c == '\n')
        else c :: reSubF f rep n t (c == '\n') := rfl

theorem reSubF_irrel (f : Matcher) (rep : List Char) (hf : GoodM f) :
    ∀ (n : Nat) (s : List Char) (m2 : Nat) (b : Bool),
      s.length < n → s.length < m2 → reSubF f rep n s b = reSubF f rep m2 s b := by
  intro n
  induction n with
  | zero => intro s m2 b h _; exact absurd h (by omega)
  | succ n ih =>
    intro s m2 b hn hm
    cases m2 with
    | zero => exact absurd hm (by omega)
    | succ m3 =>
      cases s with
      | nil => rfl
      | cons c t =>
        rw [reSubF_cons, reSubF_cons]
        simp only [List.length_cons] at hn hm
        cases b with
        | false =>
          show c :: reSubF f rep n t (c == '\n') = c :: reSubF f rep m3 t (c == '\n')
          rw [ih t m3 (c == '\n') (by omega) (by omega)]
        | true =>
          rw [if_pos rfl, if_pos rfl]
          cases hfc : f (c :: t) with
          | none =>
            dsimp only
            rw [ih t m3 (c == '\n') (by omega) (by omega)]
          | some pr =>
            obtain ⟨m0, r0⟩ := pr
            dsimp only
            cases hemp : m0.isEmpty with
            | true =>
              simp only [hemp, if_true]
              rw [ih t m3 (c == '\n') (by omega) (by omega)]
            | false =>
              simp only [hemp, Bool.false_eq_true, if_false]
              obtain ⟨hsp, hm0⟩ := hf (c :: t) m0 r0 hfc
              have hr0 : r0.length ≤ t.length := by
                have : (c :: t).length = m0.length + r0.length := by
                  rw [hsp, List.length_append]
                have : 0 < m0.length := List.length_pos.mpr hm0
                simp only [List.length_cons] at *
                omega
              rw [ih r0 m3 (m0.getLast? == some '\n') (by omega) (by omega)]

/-! ### The field matchers are faithful splits -/

theorem takeWhile_middle {p : Char → Bool} {d : Char} (hd : p d = false) :
    ∀ (u A : List Char), (∀ x ∈ u, p x = true) →
      (u ++ d :: A).takeWhile p = u ∧ (u ++ d :: A).dropWhile p = d :: A := by
  intro u A
  induction u with
  | nil =>
    intro _
    constructor
    · simp [List.takeWhile_cons, hd]
    · simp [List.dropWhile_cons, hd]
  | cons c t ih =>
    intro hall
    have hc : p c = true := hall c (List.mem_cons_self _ _)
    have ht := ih fun x hx => hall x (List.mem_cons_of_mem _ hx)
    constructor
    · simp only [List.cons_append, List.takeWhile_cons, hc, if_true, ht.1]
    · simp only [List.cons_append, List.dropWhile_cons, hc, if_true, ht.2]

theorem colon_ne_nil (name : List Char) : name ++ ":".data ≠ [] := by
  intro h
  have := congrArg List.length h
  simp [List.length_append] at this

theorem fieldMatch_good (name : List Char) : GoodM (fieldMatch name) := by
  intro s m r h
  by_cases hp : (name ++ ":".data).isPrefixOf s
  · simp only [fieldMatch] at h
    rw [if_pos hp] at h
    simp only [Option.some.injEq, Prod.mk.injEq] at h
    obtain ⟨hm, hr⟩ := h
    obtain ⟨u, hu⟩ := List.isPrefixOf_iff_prefix.mp hp
    have hdrop : s.drop (name ++ ":".data).length = u := by
      rw [← hu, List.drop_left]
    rw [hdrop] at hm hr
    constructor
    · rw [← hm, ← hr, List.append_assoc, List.append_assoc,
        List.takeWhile_append_dropWhile, List.takeWhile_append_dropWhile, hu]
    · intro hc
      rw [← hm] at hc
      have h2 := List.append_eq_nil.mp (List.append_eq_nil.mp hc).1
      exact colon_ne_nil name h2.1
  · have h0 : fieldMatch name s = none := by
      simp only [fieldMatch]
      rw [if_neg hp]
    rw [h0] at h
    exact absurd h (by simp)

theorem delMatch_good (name : List Char) : GoodM (delMatch name) := by
  intro s m r h
  by_cases hp : (name ++ ":".data).isPrefixOf s
  · simp only [delMatch] at h
    rw [if_pos hp] at h
    obtain ⟨u, hu⟩ := List.isPrefixOf_iff_prefix.mp hp
    have hdrop : s.drop (name ++ ":".data).length = u := by
      rw [← hu, List.drop_left]
    rw [hdrop] at h
    cases hdw : u.dropWhile (fun c => !(c == '\n')) with
    | nil =>
      rw [hdw] at h
      exact absurd h (by simp)
    | cons c2 r2 =>
      rw [hdw] at h
      dsimp only at h
      by_cases hc2 : c2 = '\n'
      · rw [if_pos hc2] at h
        simp only [Option.some.injEq, Prod.mk.injEq] at h
        obtain ⟨hm, hr⟩ := h
        constructor
        · have hsplit : u.takeWhile (fun c => !(c == '\n')) ++ c2 :: r2 = u := by
            rw [← hdw, List.takeWhile_append_dropWhile]
          rw [← hm, ← hr, ← hu]
          conv_lhs => rw [← hsplit]
          simp
        · intro hc
          rw [← hm] at hc
          have h2 := List.append_eq_nil.mp (List.append_eq_nil.mp hc).1
          exact colon_ne_nil name h2.1
      · rw [if_neg hc2] at h
        exact absurd h (by simp)
  · have h0 : delMatch name s = none := by
      simp only [delMatch]
      rw [if_neg hp]
    rw [h0] at h
    exact absurd h (by simp)

/-! ### `re.sub` scan: walking lemmas -/

theorem reSub_eq_W (f : Matcher) (rep s : List Char) :
    reSub f rep s = reSubW f rep s true := rfl

theorem reSubF_copy_body (f : Matcher) (rep : List Char) :
    ∀ (a : List Char) (n : Nat) (z : List Char), '\n' ∉ a → (a ++ z).length < n →
    reSubF f rep n (a ++ z) false = a ++ reSubF f rep (n - a.length) z false := by
  intro a
  induction a with
  | nil =>
    intro n z _ _
    simp
  | cons c t ih =>
    intro n z hnl hn
    cases n with
    | zero =>
      simp only [List.length_append, List.length_cons] at hn
      exact absurd hn (by omega)
    | succ n2 =>
      rw [List.cons_append]
      show c :: reSubF f rep n2 (t ++ z) (c == '\n')
        = (c :: t) ++ reSubF f rep (n2 + 1 - (c :: t).length) z false
      have hc : (c == '\n') = false := by
        rw [beq_eq_false_iff_ne]
        intro he
        exact hnl (by rw [← he] at *; exact List.mem_cons_self _ _)
      rw [hc]
      have ht : '\n' ∉ t := fun hh => hnl (List.mem_cons_of_mem _ hh)
      simp only [List.length_append, List.length_cons] at hn
      rw [ih n2 z ht (by simp only [List.length_append]; omega)]
      rw [List.cons_append, List.length_cons,
        show n2 - t.length = n2 + 1 - (t.length + 1) by omega]

theorem reSubF_false_walk (f : Matcher) (rep : List Char) (a z : List Char) (n : Nat)
    (ha : '\n' ∉ a) (hn : (a ++ '\n' :: z).length < n) :
    reSubF f rep n (a ++ '\n' :: z) false
      = a ++ '\n' :: reSubF f rep (n - a.length - 1) z true := by
  rw [reSubF_copy_body f rep a n ('\n' :: z) ha hn]
  have h1 : n - a.length = (n - a.length - 1) + 1 := by
    simp only [List.length_append, List.length_cons] at hn
    omega
  rw [h1]
  rw [show reSubF f rep ((n - a.length - 1) + 1) ('\n' :: z) false
      = '\n' :: reSubF f rep (n - a.length - 1) z true from rfl]
  rw [Nat.add_sub_cancel]

theorem reSubW_false_line (f : Matcher) (rep : List Char) (hf : GoodM f)
    (a z : List Char) (ha : '\n' ∉ a) :
    reSubW f rep (a ++ '\n' :: z) false = a ++ '\n' :: reSubW f rep z true := by
  unfold reSubW
  rw [reSubF_false_walk f rep a z ((a ++ '\n' :: z).length + 1) ha (by omega)]
  rw [reSubF_irrel f rep hf _ z (z.length + 1) true
    (by simp only [List.length_append, List.length_cons]; omega) (by omega)]

theorem reSubW_match (f : Matcher) (rep : List Char) (hf : GoodM f)
    {s m r : List Char} (hm : f s = some (m, r)) :
    reSubW f rep s true = rep ++ reSubF f rep (r.length + 1) r (m.getLast? == some '\n') := by
  obtain ⟨hsp, hne⟩ := hf s m r hm
  cases hm0 : m with
  | nil => exact absurd hm0 hne
  | cons c m2 =>
    rw [hm0] at hsp
    subst hsp
    rw [List.cons_append] at hm ⊢
    unfold reSubW
    rw [show ((c :: (m2 ++ r)).length + 1) = (m2 ++ r).length + 1 + 1 from by
      rw [List.length_cons]]
    rw [reSubF_cons, if_pos rfl, hm]
    dsimp only
    rw [hm0]
    rw [show (c :: m2).isEmpty = false from rfl]
    simp only [Bool.false_eq_true, if_false]
    rw [reSubF_irrel f rep hf _ r (r.length + 1) _
      (by simp only [List.length_append]; omega) (by omega)]

theorem reSubW_match_nl (f : Matcher) (rep : List Char) (hf : GoodM f)
    {s m r : List Char} (hm : f s = some (m, r)) (hlast : m.getLast? = some '\n') :
    reSubW f rep s true = rep ++ reSubW f rep r true := by
  rw [reSubW_match f rep hf hm, hlast]
  rfl

theorem reSubW_match_mid (f : Matcher) (rep : List Char) (hf : GoodM f)
    {s m w : List Char} (hm : f s = some (m, '\n' :: w))
    (hlast : ¬ m.getLast? = some '\n') :
    reSubW f rep s true = rep ++ '\n' :: reSubW f rep w true := by
  rw [reSubW_match f rep hf hm]
  rw [show (m.getLast? == some '\n') = false from beq_eq_false_iff_ne.mpr hlast]
  rw [show ('\n' :: w).length + 1 = w.length + 1 + 1 from by rw [List.length_cons]]
  rw [show reSubF f rep (w.length + 1 + 1) ('\n' :: w) false
      = '\n' :: reSubF f rep (w.length + 1) w ('\n' == '\n') from rfl]
  rfl

theorem reSubW_match_end (f : Matcher) (rep : List Char) (hf : GoodM f)
    {s m : List Char} (hm : f s = some (m, [])) :
    reSubW f rep s true = rep := by
  rw [reSubW_match f rep hf hm]
  rw [show reSubF f rep (([] : List Char).length + 1) [] (m.getLast? == some '\n')
      = [] from rfl, List.append_nil]

theorem reSubW_fail_line (f : Matcher) (rep : List Char) (hf : GoodM f)
    {l : List Char} (z : List Char)
    (hlast : l.getLast? = some '\n') (hbody : '\n' ∉ l.dropLast)
    (hfail : f (l ++ z) = none) :
    reSubW f rep (l ++ z) true = l ++ reSubW f rep z true := by
  have hd : l = l.dropLast ++ ['\n'] :=
    (List.dropLast_append_getLast? '\n' (Option.mem_def.mpr hlast)).symm
  cases hb : l.dropLast with
  | nil =>
    rw [hd, hb, List.nil_append] at hfail ⊢
    rw [List.singleton_append] at hfail ⊢
    unfold reSubW
    rw [show ('\n' :: z).length + 1 = z.length + 1 + 1 from by rw [List.length_cons]]
    rw [reSubF_cons, if_pos rfl, hfail]
    dsimp only
    rw [show ('\n' == '\n') = true from rfl]
    rfl
  | cons c t =>
    rw [hb] at hd hbody
    rw [hd] at hfail ⊢
    have hc : (c == '\n') = false := by
      rw [beq_eq_false_iff_ne]
      intro he
      exact hbody (by rw [← he] at *; exact List.mem_cons_self _ _)
    have ht : '\n' ∉ t := fun hh => hbody (List.mem_cons_of_mem _ hh)
    rw [List.append_assoc, List.singleton_append, List.cons_append] at hfail ⊢
    unfold reSubW
    rw [show (c :: (t ++ '\n' :: z)).length + 1 = (t ++ '\n' :: z).length + 1 + 1 from by
      rw [List.length_cons]]
    rw [reSubF_cons, if_pos rfl, hfail]
    dsimp only
    rw [hc]
    rw [reSubF_false_walk f rep t z ((t ++ '\n' :: z).length + 1) ht (by omega)]
    rw [reSubF_irrel f rep hf _ z (z.length + 1) true
      (by simp only [List.length_append, List.length_cons]; omega) (by omega)]
    simp

theorem reSubW_fail_nlfree (f : Matcher) (rep : List Char)
    {s : List Char} (hnl : '\n' ∉ s) (hfail : f s = none) :
    reSubW f rep s true = s := by
  cases s with
  | nil => rfl
  | cons c t =>
    unfold reSubW
    rw [show (c :: t).length + 1 = t.length + 1 + 1 from by rw [List.length_cons]]
    rw [reSubF_cons, if_pos rfl, hfail]
    dsimp only
    have hc : (c == '\n') = false := by
      rw [beq_eq_false_iff_ne]
      intro he
      exact hnl (by rw [← he] at *; exact List.mem_cons_self _ _)
    rw [hc]
    have ht : '\n' ∉ t := fun hh => hnl (List.mem_cons_of_mem _ hh)
    have hcopy := reSubF_copy_body f rep t (t.length + 1) [] ht (by simp)
    rw [List.append_nil] at hcopy
    rw [hcopy,
      show reSubF f rep (t.length + 1 - t.length) [] false = [] from by
        rw [show t.length + 1 - t.length = 1 by omega]
        rfl,
      List.append_nil]

/-! ### Matcher behaviour on whole lines -/

theorem takeWhile_all {p : Char → Bool} : ∀ {u : List Char},
    (∀ x ∈ u, p x = true) → u.takeWhile p = u ∧ u.dropWhile p = [] := by
  intro u
  induction u with
  | nil => intro _; exact ⟨rfl, rfl⟩
  | cons c t ih =>
    intro h
    have hc : p c = true := h c (List.mem_cons_self _ _)
    have ht := ih fun x hx => h x (List.mem_cons_of_mem _ hx)
    constructor
    · rw [List.takeWhile_cons, if_pos hc, ht.1]
    · rw [List.dropWhile_cons, if_pos hc, ht.2]

theorem nl_not_mem : ∀ {l : List Char}, '\n' ∉ l.dropLast →
    ¬ l.getLast? = some '\n' → '\n' ∉ l := by
  intro l
  induction l with
  | nil => intro _ _ h; exact absurd h (List.not_mem_nil _)
  | cons c t ih =>
    intro hbody hlast hmem
    cases t with
    | nil =>
      have : c = '\n' := by
        rcases List.mem_cons.mp hmem with h | h
        · exact h.symm
        · exact absurd h (List.not_mem_nil _)
      exact hlast (by rw [List.getLast?_singleton, this])
    | cons d t2 =>
      rw [List.dropLast_cons₂] at hbody
      rw [List.getLast?_cons_cons] at hlast
      rcases List.mem_cons.mp hmem with h | h
      · exact hbody (by rw [← h]; exact List.mem_cons_self _ _)
      · exact ih (fun hx => hbody (List.mem_cons_of_mem _ hx)) hlast h

theorem fieldMatch_none {name s : List Char}
    (hp : ¬ (name ++ ":".data).isPrefixOf s = true) :
    fieldMatch name s = none := by
  simp only [fieldMatch]
  rw [if_neg hp]

theorem delMatch_none {name s : List Char}
    (hp : ¬ (name ++ ":".data).isPrefixOf s = true) :
    delMatch name s = none := by
  simp only [delMatch]
  rw [if_neg hp]

/-- A line-anchored `name:` probe cannot cross the end of a terminated
line when `name` has no newline: if the line does not start with `name:`,
the probe fails on the line joined with any continuation. -/
theorem prefix_line_cross {name l z : List Char} (hn : '\n' ∉ name)
    (hlast : l.getLast? = some '\n') (hfalse : ¬ lineMatches name l = true) :
    ¬ (name ++ ":".data).isPrefixOf (l ++ z) = true := by
  intro hp
  have hpre : (name ++ ":".data) <+: l ++ z := List.isPrefixOf_iff_prefix.mp hp
  by_cases hlen : (name ++ ":".data).length ≤ l.length
  · exact hfalse (List.isPrefixOf_iff_prefix.mpr
      (List.prefix_of_prefix_length_le hpre (List.prefix_append l z) hlen))
  · have hlp : l <+: name ++ ":".data :=
      List.prefix_of_prefix_length_le (List.prefix_append l z) hpre (by omega)
    have hmem : '\n' ∈ name ++ ":".data := hlp.subset (nl_mem_of_getLast hlast)
    rcases List.mem_append.mp hmem with h | h
    · exact hn h
    · simp at h

/-- `^name:\s*.*$` on a matching terminated line whose colon is followed
by a non-whitespace character before the newline: the match is exactly
the line minus its newline. -/
theorem fieldMatch_line {name l : List Char} (z : List Char)
    (hm : lineMatches name l = true)
    (hlast : l.getLast? = some '\n') (hbody : '\n' ∉ l.dropLast)
    (hgood : ¬ ((l.drop (name ++ ":".data).length).dropWhile isWs) = []) :
    fieldMatch name (l ++ z) = some (l.dropLast, '\n' :: z) := by
  obtain ⟨u0, hu0⟩ := List.isPrefixOf_iff_prefix.mp hm
  have hp2 : (name ++ ":".data).isPrefixOf (l ++ z) = true :=
    List.isPrefixOf_iff_prefix.mpr ⟨u0 ++ z, by rw [← List.append_assoc, hu0]⟩
  have hdrop0 : l.drop (name ++ ":".data).length = u0 := by
    rw [← hu0, List.drop_left]
  have hdropz : (l ++ z).drop (name ++ ":".data).length = u0 ++ z := by
    rw [← hu0, List.append_assoc, List.drop_left]
  have hu0ne : u0 ≠ [] := by
    intro he
    rw [he, List.append_nil] at hu0
    rw [← hu0] at hlast
    have : (name ++ ":".data).getLast? = some ':' := by
      rw [List.getLast?_append_of_ne_nil name (by simp)]
      rfl
    rw [this] at hlast
    simp at hlast
  have hu0last : u0.getLast? = some '\n' := by
    rw [suffix_getLast? ⟨name ++ ":".data, hu0⟩ hu0ne]
    exact hlast
  have hu0body : '\n' ∉ u0.dropLast := by
    intro hc
    apply hbody
    rw [← hu0, List.dropLast_append_of_ne_nil _ hu0ne]
    exact List.mem_append_right _ hc
  -- split the after-colon text at the first non-whitespace character
  rw [hdrop0] at hgood
  cases hD : u0.dropWhile isWs with
  | nil => exact absurd hD hgood
  | cons d D2 =>
    have hdws : isWs d = false := dropWhile_head_false hD
    have hWall : ∀ x ∈ u0.takeWhile isWs, isWs x = true := fun x hx =>
      List.mem_takeWhile_imp hx
    have hu0split : u0.takeWhile isWs ++ d :: D2 = u0 := by
      rw [← hD, List.takeWhile_append_dropWhile]
    have hdws2 : ¬ isWs d = true := by
      rw [hdws]
      exact Bool.false_ne_true
    have htw : (u0.takeWhile isWs).takeWhile isWs = u0.takeWhile isWs :=
      (takeWhile_all hWall).1
    have hdw : (u0.takeWhile isWs).dropWhile isWs = [] :=
      (takeWhile_all hWall).2
    -- the whitespace run of the joined text stays inside the line
    have hA : u0 ++ z = u0.takeWhile isWs ++ d :: (D2 ++ z) := by
      conv_lhs => rw [← hu0split]
      simp
    have h1 : (u0 ++ z).takeWhile isWs = u0.takeWhile isWs := by
      rw [hA, (takeWhile_append_nonWs hdws2 _ _).1, htw]
    have h2 : (u0 ++ z).dropWhile isWs = d :: (D2 ++ z) := by
      rw [hA, (takeWhile_append_nonWs hdws2 _ _).2, hdw, List.nil_append]
    -- the run of `d :: D2` ends with the newline of the line
    have hDsuffix : (d :: D2) <:+ u0 := by
      rw [← hD]
      exact List.dropWhile_suffix isWs
    have hDlast : (d :: D2).getLast? = some '\n' := by
      rw [suffix_getLast? hDsuffix (by simp)]
      exact hu0last
    have hDne : (d :: D2) ≠ [] := by simp
    have hDdecomp : d :: D2 = (d :: D2).dropLast ++ ['\n'] :=
      (List.dropLast_append_getLast? '\n' (Option.mem_def.mpr hDlast)).symm
    have hDbody : '\n' ∉ (d :: D2).dropLast := by
      obtain ⟨pre, hpre⟩ := hDsuffix
      intro hc
      apply hu0body
      rw [← hpre, List.dropLast_append_of_ne_nil _ hDne]
      exact List.mem_append_right _ hc
    have h3 : d :: (D2 ++ z) = (d :: D2).dropLast ++ '\n' :: z := by
      rw [show d :: (D2 ++ z) = (d :: D2) ++ z from by rw [List.cons_append]]
      conv_lhs => rw [hDdecomp]
      simp
    have hall2 : ∀ x ∈ (d :: D2).dropLast, (!(x == '\n')) = true := by
      intro x hx
      have hxne : x ≠ '\n' := fun he => hDbody (he ▸ hx)
      simp [hxne]
    have hmid := takeWhile_middle (show (!('\n' == '\n')) = false from by simp)
      ((d :: D2).dropLast) z hall2
    -- assemble the match
    simp only [fieldMatch]
    rw [if_pos hp2, hdropz, h1, h2, h3, hmid.1, hmid.2]
    have h5 : l.dropLast = name ++ ":".data ++ (u0.takeWhile isWs ++ (d :: D2).dropLast) := by
      rw [← hu0, List.dropLast_append_of_ne_nil _ hu0ne]
      congr 1
      conv_lhs => rw [← hu0split]
      rw [List.dropLast_append_of_ne_nil _ hDne]
    rw [h5, List.append_assoc]

/-- `^name:\s*.*$` on a matching final line with no newline at all: the
match runs to the end of the text. -/
theorem fieldMatch_lastline {name l : List Char} (hm : lineMatches name l = true)
    (hnl : '\n' ∉ l) : fieldMatch name l = some (l, []) := by
  obtain ⟨u0, hu0⟩ := List.isPrefixOf_iff_prefix.mp hm
  have hdrop0 : l.drop (name ++ ":".data).length = u0 := by
    rw [← hu0, List.drop_left]
  have hu0nl : '\n' ∉ u0 := fun hc =>
    hnl (by rw [← hu0]; exact List.mem_append_right _ hc)
  have hall : ∀ x ∈ u0.dropWhile isWs, (!(x == '\n')) = true := by
    intro x hx
    have hxm : x ∈ u0 := (List.dropWhile_suffix isWs).subset hx
    have hxne : x ≠ '\n' := fun he => hu0nl (he ▸ hxm)
    simp [hxne]
  have hm2 : (name ++ ":".data).isPrefixOf l = true := hm
  simp only [fieldMatch]
  rw [if_pos hm2, hdrop0, (takeWhile_all hall).1, (takeWhile_all hall).2]
  rw [List.append_assoc, List.takeWhile_append_dropWhile, hu0]

/-- `^name:.*\n` on a matching terminated line: the match is the whole
line including its newline. -/
theorem delMatch_line {name l : List Char} (z : List Char)
    (hm : lineMatches name l = true)
    (hlast : l.getLast? = some '\n') (hbody : '\n' ∉ l.dropLast) :
    delMatch name (l ++ z) = some (l, z) := by
  obtain ⟨u0, hu0⟩ := List.isPrefixOf_iff_prefix.mp hm
  have hp2 : (name ++ ":".data).isPrefixOf (l ++ z) = true :=
    List.isPrefixOf_iff_prefix.mpr ⟨u0 ++ z, by rw [← List.append_assoc, hu0]⟩
  have hdropz : (l ++ z).drop (name ++ ":".data).length = u0 ++ z := by
    rw [← hu0, List.append_assoc, List.drop_left]
  have hu0ne : u0 ≠ [] := by
    intro he
    rw [he, List.append_nil] at hu0
    rw [← hu0] at hlast
    have hco : (name ++ ":".data).getLast? = some ':' := by
      rw [List.getLast?_append_of_ne_nil name (by simp)]
      rfl
    rw [hco] at hlast
    simp at hlast
  have hu0last : u0.getLast? = some '\n' := by
    rw [suffix_getLast? ⟨name ++ ":".data, hu0⟩ hu0ne]
    exact hlast
  have hu0body : '\n' ∉ u0.dropLast := by
    intro hc
    apply hbody
    rw [← hu0, List.dropLast_append_of_ne_nil _ hu0ne]
    exact List.mem_append_right _ hc
  have hu0decomp : u0 = u0.dropLast ++ ['\n'] :=
    (List.dropLast_append_getLast? '\n' (Option.mem_def.mpr hu0last)).symm
  have hall2 : ∀ x ∈ u0.dropLast, (!(x == '\n')) = true := by
    intro x hx
    have hxne : x ≠ '\n' := fun he => hu0body (he ▸ hx)
    simp [hxne]
  have hmid := takeWhile_middle (show (!('\n' == '\n')) = false from by simp)
    u0.dropLast z hall2
  have hz : u0 ++ z = u0.dropLast ++ '\n' :: z := by
    conv_lhs => rw [hu0decomp]
    simp
  simp only [delMatch]
  rw [if_pos hp2, hdropz, hz, hmid.1, hmid.2]
  dsimp only
  rw [if_pos rfl]
  rw [List.append_assoc]
  conv_lhs => rw [← hu0decomp]
  rw [hu0]

/-- `^name:.*\n` never matches inside newline-free text. -/
theorem delMatch_nlfree {name l : List Char} (hnl : '\n' ∉ l) :
    delMatch name l = none := by
  by_cases hp : (name ++ ":".data).isPrefixOf l = true
  · obtain ⟨u0, hu0⟩ := List.isPrefixOf_iff_prefix.mp hp
    have hdrop0 : l.drop (name ++ ":".data).length = u0 := by
      rw [← hu0, List.drop_left]
    have hu0nl : '\n' ∉ u0 := fun hc =>
      hnl (by rw [← hu0]; exact List.mem_append_right _ hc)
    have hall : ∀ x ∈ u0, (!(x == '\n')) = true := by
      intro x hx
      have hxne : x ≠ '\n' := fun he => hu0nl (he ▸ hx)
      simp [hxne]
    simp only [delMatch]
    rw [if_pos hp, hdrop0, (takeWhile_all hall).2]
  · exact delMatch_none hp

/-! ### `re.sub` on one line at a time -/

theorem reSubW_field_step (name value : List Char) (hn : '\n' ∉ name)
    {l : List Char} (z : List Char) (hbody : '\n' ∉ l.dropLast)
    (hterm : l.getLast? = some '\n') (hgood : goodFieldLine name l = true) :
    reSubW (fieldMatch name) (name ++ ": ".data ++ value) (l ++ z) true
      = patchLine name value l
          ++ reSubW (fieldMatch name) (name ++ ": ".data ++ value) z true := by
  by_cases hLM : lineMatches name l = true
  · have hb : (l.getLast? == some '\n') = true := by
      rw [hterm]
      rfl
    have hgood2 : ¬ (l.drop (name ++ ":".data).length).dropWhile isWs = [] := by
      simp only [goodFieldLine, hLM, hb, Bool.and_self, Bool.not_true,
        Bool.false_or, Bool.not_eq_true'] at hgood
      intro hc
      rw [hc] at hgood
      simp at hgood
    have hfm := fieldMatch_line z hLM hterm hbody hgood2
    have hlastm : ¬ (l.dropLast).getLast? = some '\n' := fun hc =>
      hbody (nl_mem_of_getLast hc)
    rw [reSubW_match_mid (fieldMatch name) _ (fieldMatch_good name) hfm hlastm]
    simp only [patchLine]
    rw [if_pos hLM, if_pos hterm]
    simp
  · have hfail : fieldMatch name (l ++ z) = none :=
      fieldMatch_none (prefix_line_cross hn hterm hLM)
    rw [reSubW_fail_line _ _ (fieldMatch_good name) z hterm hbody hfail]
    simp only [patchLine]
    rw [if_neg hLM]

theorem reSubW_field_last (name value : List Char) {l : List Char} (hnl : '\n' ∉ l) :
    reSubW (fieldMatch name) (name ++ ": ".data ++ value) l true
      = patchLine name value l := by
  by_cases hLM : lineMatches name l = true
  · have hlast2 : ¬ l.getLast? = some '\n' := fun hc => hnl (nl_mem_of_getLast hc)
    rw [reSubW_match_end _ _ (fieldMatch_good name) (fieldMatch_lastline hLM hnl)]
    simp only [patchLine]
    rw [if_pos hLM, if_neg hlast2]
    simp
  · rw [reSubW_fail_nlfree _ _ hnl (fieldMatch_none hLM)]
    simp only [patchLine]
    rw [if_neg hLM]

theorem reSubW_del_step (name : List Char) (hn : '\n' ∉ name)
    {l : List Char} (z : List Char) (hbody : '\n' ∉ l.dropLast)
    (hterm : l.getLast? = some '\n') :
    reSubW (delMatch name) [] (l ++ z) true
      = (if delLine name l = true then [] else l) ++ reSubW (delMatch name) [] z true := by
  by_cases hLM : lineMatches name l = true
  · have hdel : delLine name l = true := by
      simp only [delLine, hLM, Bool.true_and]
      rw [hterm]
      rfl
    rw [if_pos hdel, List.nil_append]
    rw [reSubW_match_nl _ _ (delMatch_good name) (delMatch_line z hLM hterm hbody) hterm,
      List.nil_append]
  · have hdel : ¬ delLine name l = true := by
      simp only [delLine, Bool.and_eq_true]
      intro hc
      exact hLM hc.1
    rw [if_neg hdel]
    exact reSubW_fail_line _ _ (delMatch_good name) z hterm hbody
      (delMatch_none (prefix_line_cross hn hterm hLM))

theorem reSubW_del_last (name : List Char) {l : List Char} (hnl : '\n' ∉ l) :
    reSubW (delMatch name) [] l true = l :=
  reSubW_fail_nlfree _ _ hnl (delMatch_nlfree hnl)

/-! ### `re.sub` over a whole document, line by line -/

theorem reSub_field_lines (name value : List Char) (hn : '\n' ∉ name) :
    ∀ lines, ProperLines lines → (∀ l ∈ lines, goodFieldLine name l = true) →
    reSub (fieldMatch name) (name ++ ": ".data ++ value) (joinKE lines)
      = joinKE (lines.map (patchLine name value)) := by
  intro lines
  induction lines with
  | nil => intro _ _; rfl
  | cons l rest ih =>
    intro hp hgood
    obtain ⟨⟨hlne, hbody⟩, hrestf⟩ := properLines_cases hp
    rw [joinKE_cons, List.map_cons, joinKE_cons, reSub_eq_W]
    by_cases hrn : rest = []
    · rw [hrn]
      rw [show joinKE ([] : List (List Char)) = [] from rfl, List.map_nil,
        show joinKE ([] : List (List Char)) = [] from rfl,
        List.append_nil, List.append_nil]
      by_cases hterm : l.getLast? = some '\n'
      · have hstep := reSubW_field_step name value hn [] hbody hterm
          (hgood l (List.mem_cons_self _ _))
        rw [List.append_nil] at hstep
        rw [hstep,
          show reSubW (fieldMatch name) (name ++ ": ".data ++ value) [] true = []
            from rfl, List.append_nil]
      · exact reSubW_field_last name value (nl_not_mem hbody hterm)
    · obtain ⟨hterm, hrest2⟩ := hrestf hrn
      rw [reSubW_field_step name value hn (joinKE rest) hbody hterm
        (hgood l (List.mem_cons_self _ _))]
      rw [← reSub_eq_W, ih hrest2 fun x hx => hgood x (List.mem_cons_of_mem _ hx)]

theorem reSub_del_lines (name : List Char) (hn : '\n' ∉ name) :
    ∀ lines, ProperLines lines →
    reSub (delMatch name) [] (joinKE lines)
      = joinKE (lines.filter fun l => !delLine name l) := by
  intro lines
  induction lines with
  | nil => intro _; rfl
  | cons l rest ih =>
    intro hp
    obtain ⟨⟨hlne, hbody⟩, hrestf⟩ := properLines_cases hp
    rw [joinKE_cons, List.filter_cons, reSub_eq_W]
    by_cases hrn : rest = []
    · rw [hrn]
      rw [show joinKE ([] : List (List Char)) = [] from rfl, List.append_nil,
        List.filter_nil]
      by_cases hterm : l.getLast? = some '\n'
      · have hstep := reSubW_del_step name hn [] hbody hterm
        rw [List.append_nil, show reSubW (delMatch name) [] [] true = [] from rfl,
          List.append_nil] at hstep
        rw [hstep]
        by_cases hdel : delLine name l = true
        · rw [if_pos hdel, show (!delLine name l) = false from by rw [hdel]; rfl,
            if_neg (by simp)]
          rfl
        · have hb : delLine name l = false := Bool.eq_false_iff.mpr hdel
          rw [if_neg hdel, show (!delLine name l) = true from by rw [hb]; rfl,
            if_pos rfl, joinKE_cons,
            show joinKE ([] : List (List Char)) = [] from rfl, List.append_nil]
      · have hb : (l.getLast? == some '\n') = false := beq_eq_false_iff_ne.mpr hterm
        have hdel2 : (!delLine name l) = true := by
          simp only [delLine, hb, Bool.and_false]
          rfl
        rw [reSubW_del_last name (nl_not_mem hbody hterm), hdel2, if_pos rfl,
          joinKE_cons, show joinKE ([] : List (List Char)) = [] from rfl,
          List.append_nil]
    · obtain ⟨hterm, hrest2⟩ := hrestf hrn
      rw [reSubW_del_step name hn (joinKE rest) hbody hterm]
      rw [← reSub_eq_W, ih hrest2]
      by_cases hdel : delLine name l = true
      · rw [if_pos hdel, show (!delLine name l) = false from by rw [hdel]; rfl,
          if_neg (by simp), List.nil_append]
      · have hb : delLine name l = false := Bool.eq_false_iff.mpr hdel
        rw [if_neg hdel, show (!delLine name l) = true from by rw [hb]; rfl,
          if_pos rfl, joinKE_cons]

theorem patchField_lines (name value doc : List Char) (hn : '\n' ∉ name)
    (hgood : ∀ l ∈ splitKE doc, goodFieldLine name l = true) :
    patchField name value doc = joinKE ((splitKE doc).map (patchLine name value)) := by
  unfold patchField
  conv_lhs => rw [← joinKE_splitKE doc]
  exact reSub_field_lines name value hn (splitKE doc) (properLines_splitKE doc) hgood

theorem deleteFieldIf_false (name doc : List Char) :
    deleteFieldIf name doc false = doc := rfl

theorem deleteFieldIf_lines (name doc : List Char) (hn : '\n' ∉ name) :
    deleteFieldIf name doc true
      = joinKE ((splitKE doc).filter fun l => !delLine name l) := by
  unfold deleteFieldIf
  rw [if_pos rfl]
  conv_lhs => rw [← joinKE_splitKE doc]
  exact reSub_del_lines name hn (splitKE doc) (properLines_splitKE doc)

theorem patchField_nomatch (name value doc : List Char) (hn : '\n' ∉ name)
    (hnom : ∀ l ∈ splitKE doc, lineMatches name l = false) :
    patchField name value doc = doc := by
  have hgood : ∀ l ∈ splitKE doc, goodFieldLine name l = true := by
    intro l hl
    simp [goodFieldLine, hnom l hl]
  rw [patchField_lines name value doc hn hgood]
  have hmap : (splitKE doc).map (patchLine name value) = splitKE doc := by
    have hid : ∀ l ∈ splitKE doc, patchLine name value l = l := by
      intro l hl
      simp only [patchLine]
      rw [if_neg (by rw [hnom l hl]; exact Bool.false_ne_true)]
    rw [List.map_congr_left hid, List.map_id']
  rw [hmap, joinKE_splitKE]

/-! ### Round trip: splitting a proper line list -/

theorem takeLine_eq_none {l : List Char} (hnl : '\n' ∉ l) : takeLine l = none := by
  cases h : takeLine l with
  | none => rfl
  | some pr =>
    obtain ⟨a, b⟩ := pr
    obtain ⟨he, -, hlast, -⟩ := takeLine_eq h
    exact absurd (by rw [he]; exact List.mem_append_left _ (nl_mem_of_getLast hlast)) hnl

theorem splitKE_joinKE : ∀ lines, ProperLines lines → splitKE (joinKE lines) = lines := by
  intro lines
  induction lines with
  | nil => intro _; rfl
  | cons l rest ih =>
    intro hp
    obtain ⟨⟨hlne, hbody⟩, hrestf⟩ := properLines_cases hp
    rw [joinKE_cons]
    by_cases hrn : rest = []
    · rw [hrn]
      rw [show joinKE ([] : List (List Char)) = [] from rfl, List.append_nil]
      by_cases hterm : l.getLast? = some '\n'
      · have htl : takeLine (l ++ []) = some (l, []) := takeLine_line hterm hbody []
        rw [List.append_nil] at htl
        rw [splitKE_line htl]
        rfl
      · rw [splitKE_noline hlne (takeLine_eq_none (nl_not_mem hbody hterm))]
    · obtain ⟨hterm, hrest2⟩ := hrestf hrn
      rw [splitKE_line (takeLine_line hterm hbody (joinKE rest)), ih hrest2]

/-! ### The patched lines are again proper lines -/

theorem patchLine_ne_nil (name value : List Char) {l : List Char} (hlne : l ≠ []) :
    patchLine name value l ≠ [] := by
  simp only [patchLine]
  by_cases hLM : lineMatches name l = true
  · rw [if_pos hLM]
    intro hc
    simp [List.append_eq_nil] at hc
  · rw [if_neg hLM]
    exact hlne

theorem patchLine_dropLast (name value : List Char) (hn : '\n' ∉ name)
    (hv : '\n' ∉ value) {l : List Char} (hbody : '\n' ∉ l.dropLast) :
    '\n' ∉ (patchLine name value l).dropLast := by
  simp only [patchLine]
  by_cases hLM : lineMatches name l = true
  · rw [if_pos hLM]
    by_cases hterm : l.getLast? = some '\n'
    · rw [if_pos hterm]
      intro hc
      rw [List.dropLast_append_of_ne_nil _
        (show (['\n'] : List Char) ≠ [] from by simp)] at hc
      rw [show (['\n'] : List Char).dropLast = [] from rfl, List.append_nil] at hc
      simp [List.mem_append, hn, hv] at hc
    · rw [if_neg hterm]
      intro hc
      rw [List.append_nil] at hc
      have hm := (List.dropLast_sublist (name ++ ": ".data ++ value)).mem hc
      simp [List.mem_append, hn, hv] at hm
  · rw [if_neg hLM]
    exact hbody

theorem patchLine_getLast (name value : List Char) {l : List Char}
    (hterm : l.getLast? = some '\n') :
    (patchLine name value l).getLast? = some '\n' := by
  simp only [patchLine]
  by_cases hLM : lineMatches name l = true
  · rw [if_pos hLM, if_pos hterm]
    rw [List.getLast?_append_of_ne_nil _ (show (['\n'] : List Char) ≠ [] from by simp)]
    rfl
  · rw [if_neg hLM]
    exact hterm

theorem properLines_map_patchLine (name value : List Char) (hn : '\n' ∉ name)
    (hv : '\n' ∉ value) :
    ∀ lines, ProperLines lines → ProperLines (lines.map (patchLine name value)) := by
  intro lines
  induction lines with
  | nil => intro _; exact trivial
  | cons l rest ih =>
    intro hp
    cases rest with
    | nil =>
      obtain ⟨h1, h2⟩ := hp
      exact ⟨patchLine_ne_nil name value h1, patchLine_dropLast name value hn hv h2⟩
    | cons r1 r2 =>
      obtain ⟨h1, h2, h3, h4⟩ := hp
      exact ⟨patchLine_ne_nil name value h1, patchLine_getLast name value h2,
        patchLine_dropLast name value hn hv h3, ih h4⟩

theorem patchField_lineCount (name value doc : List Char) (hn : '\n' ∉ name)
    (hv : '\n' ∉ value) (hgood : ∀ l ∈ splitKE doc, goodFieldLine name l = true) :
    (splitKE (patchField name value doc)).length = (splitKE doc).length := by
  rw [patchField_lines name value doc hn hgood,
    splitKE_joinKE _ (properLines_map_patchLine name value hn hv (splitKE doc)
      (properLines_splitKE doc)),
    List.length_map]

/-! ### Auth Contract insertion: guard and idempotence -/

theorem authInsert_contains {d : List Char} (h : authHeader <:+: d) :
    authInsert d = d := by
  unfold authInsert
  rw [if_pos h]

theorem authHeader_prefix_contract : authHeader <+: auth_contract := by decide

theorem authInsert_idem (d : List Char) :
    authInsert (authInsert d) = authInsert d := by
  by_cases h : authHeader <:+: d
  · rw [authInsert_contains h, authInsert_contains h]
  · have hsub : authHeader <:+: authInsert d := by
      unfold authInsert
      rw [if_neg h]
      cases hsp : splitKE d with
      | nil => exact authHeader_prefix_contract.isInfix
      | cons l0 rest =>
        have h1 : authHeader <:+: auth_contract := authHeader_prefix_contract.isInfix
        have h2 : auth_contract <:+: (l0 ++ '\n' :: (auth_contract ++ joinKE rest)) :=
          ⟨l0 ++ ['\n'], joinKE rest, by simp⟩
        exact h1.trans h2
    exact authInsert_contains hsub

/-! ### Inputs used by the claim counterexamples and witnesses -/

/-! ### The claims -/

/-- C1: upsert applied twice equals upsert applied once, provided the
locator already matches the document (the append path is excluded: it can
create a fresh arrangement that the second run rewrites again). -/
theorem claim_C1 (txt : List Char) (h : hasMatch txt true = true) :
    upsert_last_verified (upsert_last_verified txt) = upsert_last_verified txt :=
  upsert_idem_of_hasMatch h

/-- C1 counterexample: on the header-only document without a final
newline the locator does not match, the append path runs, and a second
application changes the text again. -/
theorem claim_C1_cex :
    upsert_last_verified (upsert_last_verified "## Last Verified".data)
      ≠ upsert_last_verified "## Last Verified".data := by decide

theorem claim_C1_witness :
    hasMatch "## Last Verified\n".data true = true ∧
      upsert_last_verified (upsert_last_verified "## Last Verified\n".data)
        = upsert_last_verified "## Last Verified\n".data :=
  ⟨by decide, claim_C1 "## Last Verified\n".data (by decide)⟩

/-- C2: with sorted, pairwise disjoint, in-bounds removal spans, dedupe
keeps the document unchanged when fewer than two spans are found, and
otherwise keeps the earliest span and replaces each later span by a
single newline in one left-to-right splice that preserves all bytes
outside the removed spans. -/
theorem claim_C2 (ls : List Matcher) (doc : List Char)
    (h : spansOK 0 doc.length
      (((dedupeSpans ls doc).drop 1).map fun x => (x.1, x.2.1)) = true) :
    dedupe ls doc
      = if 1 < (dedupeSpans ls doc).length then
          cutSpansOff doc 0 (((dedupeSpans ls doc).drop 1).map fun x => (x.1, x.2.1))
        else doc :=
  dedupe_cut ls doc h

/-- C2 counterexample: after removing the later duplicate, the single
remaining occurrence matches two extra characters, so its text is not the
earliest original occurrence's text. -/
theorem claim_C2_cex :
    dedupeSpans cookiePatterns cookieDoc = [(0, 91, 0), (92, 185, 0)] ∧
    dedupeSpans cookiePatterns (dedupe cookiePatterns cookieDoc) = [(0, 93, 0)] ∧
    ¬ (dedupe cookiePatterns cookieDoc).take 93 = cookieDoc.take 91 := by decide

theorem claim_C2_witness :
    spansOK 0 cookieDoc.length
      (((dedupeSpans cookiePatterns cookieDoc).drop 1).map fun x => (x.1, x.2.1)) = true ∧
    dedupe cookiePatterns cookieDoc
      = if 1 < (dedupeSpans cookiePatterns cookieDoc).length then
          cutSpansOff cookieDoc 0
            (((dedupeSpans cookiePatterns cookieDoc).drop 1).map fun x => (x.1, x.2.1))
        else cookieDoc :=
  ⟨by decide, claim_C2 cookiePatterns cookieDoc (by decide)⟩

/-- C3: when the locator matches, upsert replaces every matched span (not
only the first) with the canonical block, as the offset-keyed edit list
splice over the collected match spans. -/
theorem claim_C3 (txt : List Char) (h : hasMatch txt true = true) :
    upsert_last_verified txt = replaceSpans txt (matchSpans txt true) := by
  unfold upsert_last_verified
  rw [if_pos h]
  exact subAll_eq_replaceSpans txt true

/-- C3 counterexample: a document with two stale sections; the later
duplicate does not remain in the output — its body `old2` disappears. -/
theorem claim_C3_cex :
    ("old2".data <:+:
        "X\n## Last Verified\nold1\n\n## Last Verified\nold2\n\n## End\nx\n".data) ∧
    hasMatch "X\n## Last Verified\nold1\n\n## Last Verified\nold2\n\n## End\nx\n".data
        true = true ∧
    ¬ ("old2".data <:+: upsert_last_verified
        "X\n## Last Verified\nold1\n\n## Last Verified\nold2\n\n## End\nx\n".data) := by
  decide

theorem claim_C3_witness :
    hasMatch "A\n## Last Verified\nold\n".data true = true ∧
    upsert_last_verified "A\n## Last Verified\nold\n".data
      = replaceSpans "A\n## Last Verified\nold\n".data
          (matchSpans "A\n## Last Verified\nold\n".data true) :=
  ⟨by decide, claim_C3 "A\n## Last Verified\nold\n".data (by decide)⟩

/-- C4: non-destructiveness, amended for the append path: when no match
exists upsert first strips trailing whitespace and then appends, keeping
the stripped document as a prefix; when a match exists upsert is the edit
list splice; dedupe with disjoint sorted spans is the one-pass splice;
patchField with line-local whitespace runs is a per-line map. -/
theorem claim_C4 :
    (∀ txt : List Char, hasMatch txt true = false →
      upsert_last_verified txt = rstrip txt ++ "\n\n".data ++ block ++ "\n".data ∧
        rstrip txt <+: txt) ∧
    (∀ txt : List Char, hasMatch txt true = true →
      upsert_last_verified txt = replaceSpans txt (matchSpans txt true)) ∧
    (∀ (ls : List Matcher) (doc : List Char),
      spansOK 0 doc.length
          (((dedupeSpans ls doc).drop 1).map fun x => (x.1, x.2.1)) = true →
      dedupe ls doc
        = if 1 < (dedupeSpans ls doc).length then
            cutSpansOff doc 0 (((dedupeSpans ls doc).drop 1).map fun x => (x.1, x.2.1))
          else doc) ∧
    (∀ name value doc : List Char, '\n' ∉ name →
      (∀ l ∈ splitKE doc, goodFieldLine name l = true) →
      patchField name value doc = joinKE ((splitKE doc).map (patchLine name value))) := by
  refine ⟨fun txt h => ⟨?_, rstrip_prefix txt⟩,
    fun txt h => ?_, fun ls doc h => dedupe_cut ls doc h,
    fun name value doc hn hg => patchField_lines name value doc hn hg⟩
  · unfold upsert_last_verified
    rw [if_neg (by rw [h]; exact Bool.false_ne_true)]
  · unfold upsert_last_verified
    rw [if_pos h]
    exact subAll_eq_replaceSpans txt true

/-- C4 counterexample: with no matched span at all, the append path still
rewrites bytes — the original document does not survive as a prefix
because its trailing whitespace is stripped. -/
theorem claim_C4_cex :
    hasMatch "x \n".data true = false ∧
    ¬ ("x \n".data <+: upsert_last_verified "x \n".data) := by decide

theorem claim_C4_witness :
    upsert_last_verified "x \n".data
        = rstrip "x \n".data ++ "\n\n".data ++ block ++ "\n".data ∧
      rstrip "x \n".data <+: "x \n".data :=
  claim_C4.1 "x \n".data (by decide)

/-- C5: dedupe is idempotent at a document whenever the deduplicated
document no longer contains two or more matches; a second pass then
leaves it unchanged. -/
theorem claim_C5 (ls : List Matcher) (doc : List Char)
    (h : ¬ 1 < (dedupeSpans ls (dedupe ls doc)).length) :
    dedupe ls (dedupe ls doc) = dedupe ls doc :=
  dedupe_short ls (dedupe ls doc) h

/-- C5 counterexample: removing the second literal match splices a newline
that creates a fresh match of the other locator, so a second pass edits
the document again. -/
theorem claim_C5_cex :
    dedupe QLs (dedupe QLs "QaQb".data) ≠ dedupe QLs "QaQb".data := by decide

theorem claim_C5_witness :
    ¬ 1 < (dedupeSpans cookiePatterns (dedupe cookiePatterns cookieDoc)).length ∧
    dedupe cookiePatterns (dedupe cookiePatterns cookieDoc)
      = dedupe cookiePatterns cookieDoc :=
  ⟨by decide, claim_C5 cookiePatterns cookieDoc (by decide)⟩

/-- C6: a `## Last Verified` header immediately followed by a sibling
header still yields a match — it is not treated as not-found — but the
matched span swallows the sibling header and extends to a later boundary
instead of stopping with a zero-length body before the sibling. -/
theorem claim_C6 (v : List Char) (hne : v ≠ []) (hlast : v.getLast? = some '\n') :
    ∃ b r, v = b ++ r ∧
      matchAt (lvLit ++ '\n' :: ("## ".data ++ v))
        = some (lvLit ++ '\n' :: ("## ".data ++ b), r) ∧
      hasMatch (lvLit ++ '\n' :: ("## ".data ++ v)) true = true := by
  obtain ⟨b, r, hv, hma⟩ := matchAt_sibling hne hlast
  refine ⟨b, r, hv, hma, ?_⟩
  have h2 := hasMatch_append_of [] true (lvLit ++ '\n' :: ("## ".data ++ v))
    (Or.inl rfl) (fun _ => rfl) (by rw [hma]; rfl)
  rw [List.nil_append] at h2
  exact h2

/-- C6 counterexample: the sibling header `## Next` lies inside the
matched span — the whole document is the match, with an empty rest. -/
theorem claim_C6_cex :
    matchAt "## Last Verified\n## Next\nx\n".data
        = some ("## Last Verified\n## Next\nx\n".data, []) ∧
      ("## Next".data <:+: "## Last Verified\n## Next\nx\n".data) := by decide

theorem claim_C6_witness :
    ("Next\nx\n".data ≠ [] ∧ "Next\nx\n".data.getLast? = some '\n') ∧
    (∃ b r, "Next\nx\n".data = b ++ r ∧
      matchAt (lvLit ++ '\n' :: ("## ".data ++ "Next\nx\n".data))
        = some (lvLit ++ '\n' :: ("## ".data ++ b), r) ∧
      hasMatch (lvLit ++ '\n' :: ("## ".data ++ "Next\nx\n".data)) true = true) :=
  ⟨⟨by decide, by decide⟩, claim_C6 "Next\nx\n".data (by decide) (by decide)⟩

/-- C7: patchField rewrites every line matching `^name:.*` whose
whitespace run stays inside its line (not only the first), keeps the line
count, and leaves the document unchanged when no line matches. -/
theorem claim_C7 (name value doc : List Char) (hn : '\n' ∉ name) (hv : '\n' ∉ value)
    (hgood : ∀ l ∈ splitKE doc, goodFieldLine name l = true) :
    patchField name value doc = joinKE ((splitKE doc).map (patchLine name value)) ∧
    (splitKE (patchField name value doc)).length = (splitKE doc).length ∧
    ((∀ l ∈ splitKE doc, lineMatches name l = false) →
      patchField name value doc = doc) :=
  ⟨patchField_lines name value doc hn hgood,
   patchField_lineCount name value doc hn hv hgood,
   fun hnom => patchField_nomatch name value doc hn hnom⟩

/-- C7 counterexample: both `Commit:` lines are rewritten, not only the
first. -/
theorem claim_C7_cex :
    patchField "Commit".data "ef1b93c".data "Commit: a\nCommit: b\n".data
        = "Commit: ef1b93c\nCommit: ef1b93c\n".data ∧
      "Commit: ef1b93c\nCommit: ef1b93c\n".data
        ≠ "Commit: ef1b93c\nCommit: b\n".data := by decide

theorem claim_C7_witness :
    ('\n' ∉ "Commit".data ∧ '\n' ∉ "ef1b93c".data ∧
      ∀ l ∈ splitKE "Commit: a\nB\n".data, goodFieldLine "Commit".data l = true) ∧
    (patchField "Commit".data "ef1b93c".data "Commit: a\nB\n".data
        = joinKE ((splitKE "Commit: a\nB\n".data).map
            (patchLine "Commit".data "ef1b93c".data)) ∧
      (splitKE (patchField "Commit".data "ef1b93c".data "Commit: a\nB\n".data)).length
        = (splitKE "Commit: a\nB\n".data).length ∧
      ((∀ l ∈ splitKE "Commit: a\nB\n".data,
          lineMatches "Commit".data l = false) →
        patchField "Commit".data "ef1b93c".data "Commit: a\nB\n".data
          = "Commit: a\nB\n".data)) :=
  ⟨⟨by decide, by decide, by decide⟩,
    claim_C7 "Commit".data "ef1b93c".data "Commit: a\nB\n".data
      (by decide) (by decide) (by decide)⟩

/-- C8: deleteFieldIf with a true condition removes every
newline-terminated line matching `^name:` (not only the first), each
including its terminator; with a false condition the document is
returned byte-identical. -/
theorem claim_C8 (name doc : List Char) (cond : Bool) (hn : '\n' ∉ name) :
    deleteFieldIf name doc cond
      = if cond then joinKE ((splitKE doc).filter fun l => !delLine name l)
        else doc := by
  cases cond with
  | false => rfl
  | true =>
    rw [if_pos rfl]
    exact deleteFieldIf_lines name doc hn

/-- C8 counterexample: both `INVARIANTS changed:` lines are removed, not
only the first. -/
theorem claim_C8_cex :
    deleteFieldIf "INVARIANTS changed".data
        "A\nINVARIANTS changed: yes\nB\nINVARIANTS changed: no\nC\n".data true
      = "A\nB\nC\n".data ∧
    "A\nB\nC\n".data ≠ "A\nB\nINVARIANTS changed: no\nC\n".data := by decide

theorem claim_C8_witness :
    '\n' ∉ "INVARIANTS changed".data ∧
    deleteFieldIf "INVARIANTS changed".data "A\nINVARIANTS changed: x\nB\n".data true
      = if true then
          joinKE ((splitKE "A\nINVARIANTS changed: x\nB\n".data).filter
            fun l => !delLine "INVARIANTS changed".data l)
        else "A\nINVARIANTS changed: x\nB\n".data :=
  ⟨by decide,
    claim_C8 "INVARIANTS changed".data "A\nINVARIANTS changed: x\nB\n".data
      true (by decide)⟩

/-- C9: when the locator finds no match, upsert appends the canonical
block at the end, after a prefix of the document whose trailing
whitespace is removed, separated by exactly one blank line. -/
theorem claim_C9 (txt : List Char) (h : hasMatch txt true = false) :
    ∃ pre, upsert_last_verified txt = pre ++ "\n\n".data ++ block ++ "\n".data ∧
      pre <+: txt ∧
      (pre = [] ∨ ∃ ch, pre.getLast? = some ch ∧ isWs ch = false) := by
  refine ⟨rstrip txt, ?_, rstrip_prefix txt, rstrip_last txt⟩
  unfold upsert_last_verified
  rw [if_neg (by rw [h]; exact Bool.false_ne_true)]

theorem claim_C9_witness :
    hasMatch "Intro\n".data true = false ∧
    ∃ pre, upsert_last_verified "Intro\n".data
        = pre ++ "\n\n".data ++ block ++ "\n".data ∧
      pre <+: "Intro\n".data ∧
      (pre = [] ∨ ∃ ch, pre.getLast? = some ch ∧ isWs ch = false) :=
  ⟨by decide, claim_C9 "Intro\n".data (by decide)⟩

/-- C10: a findings document already containing the literal Auth Contract
header is left unchanged by the insertion step, and the insertion step is
idempotent, so a second run never inserts a second block. -/
theorem claim_C10 (d : List Char) :
    (authHeader <:+: d → authInsert d = d) ∧
    authInsert (authInsert d) = authInsert d :=
  ⟨authInsert_contains, authInsert_idem d⟩

theorem claim_C10_witness :
    authInsert auth_contract = auth_contract ∧
    authInsert (authInsert "# T\n".data) = authInsert "# T\n".data :=
  ⟨(claim_C10 auth_contract).1 (by decide), (claim_C10 "# T\n".data).2⟩

end UpdateDocs
